import Mathlib

/-!
Verification development for the pdflex repository: a shallow embedding of
the PDF lexer (pdflex.go) and of the token-based xref fixup parser (fix.go),
with theorems settling the specification claims.

The Go input string is modelled as a `List Char` of runes; positions count
runes (the Go code counts bytes, but every operation advances rune-by-rune
via utf8 decoding, so the two views are isomorphic for the properties here).
The lexer's producer goroutine + channel is modelled by the finite list of
items it sends, in order.
-/

namespace Pdflex

/-- Token kinds, translated from the `ItemType` constants in pdflex.go
(including the `ItemEOL` variant). -/
inductive ItemType where
  | ItemError
  | ItemEOF
  | ItemNumber
  | ItemSpace
  | ItemEOL
  | ItemLeftDict
  | ItemRightDict
  | ItemLeftArray
  | ItemRightArray
  | ItemStreamBody
  | ItemString
  | ItemHexString
  | ItemComment
  | ItemName
  | ItemWord
  | ItemKeyword
  | ItemObj
  | ItemEndObj
  | ItemStream
  | ItemEndStream
  | ItemTrailer
  | ItemXref
  | ItemStartXref
  | ItemTrue
  | ItemFalse
  | ItemNull
deriving DecidableEq, Repr

/-- `Item` from pdflex.go: a token with its kind, starting position and
raw text. -/
structure Item where
  typ : ItemType
  pos : Nat
  val : List Char
deriving DecidableEq, Repr

/-- Go `isEndOfLine`. -/
def isEndOfLine (c : Char) : Bool := c = '\r' || c = '\n'

/-- Go `unicode.IsSpace`: the White_Space code points. (The full Unicode
table, which is finite and fixed: Latin-1 spaces plus the dedicated
space-character ranges.) -/
def unicodeIsSpace (c : Char) : Bool :=
  c = '\t' || c = '\n' || c.toNat = 11 || c.toNat = 12 || c = '\r' || c = ' ' ||
  c.toNat = 0x85 || c.toNat = 0xA0 || c.toNat = 0x1680 ||
  (0x2000 ≤ c.toNat && c.toNat ≤ 0x200A) ||
  c.toNat = 0x2028 || c.toNat = 0x2029 || c.toNat = 0x202F ||
  c.toNat = 0x205F || c.toNat = 0x3000

/-- Go `isSpace`: Unicode whitespace that is not an end-of-line character. -/
def isSpace (c : Char) : Bool := unicodeIsSpace c && !isEndOfLine c

/-- Go `isDelim`: the ten reserved PDF delimiter characters `[]{}()<>/%`
(braces written via their code points). -/
def isDelim (c : Char) : Bool :=
  (['[', ']', Char.ofNat 0x7B, Char.ofNat 0x7D, '(', ')', '<', '>', '/', '%']).contains c

/-- Go `unicode.IsLetter`, restricted to the ASCII and Latin-1 letter ranges
(every input appearing in this development is ASCII). -/
def unicodeIsLetter (c : Char) : Bool :=
  ('A' ≤ c && c ≤ 'Z') || ('a' ≤ c && c ≤ 'z') ||
  (0xC0 ≤ c.toNat && c.toNat ≤ 0xD6) || (0xD8 ≤ c.toNat && c.toNat ≤ 0xF6) ||
  (0xF8 ≤ c.toNat && c.toNat ≤ 0xFF)

/-- Go `unicode.IsDigit`, restricted to ASCII digits (every input appearing
in this development is ASCII). -/
def unicodeIsDigit (c : Char) : Bool := '0' ≤ c && c ≤ '9'

/-- Go `isAlphaNumeric`: letter, digit, or underscore. -/
def isAlphaNumeric (c : Char) : Bool :=
  c = '_' || unicodeIsLetter c || unicodeIsDigit c

/-- The scanner state from pdflex.go (`name`, the channel and `lastPos` are
not part of the scanning logic and are omitted; the items channel is
modelled by the returned item lists). -/
structure Lexer where
  input : List Char
  pos : Nat
  start : Nat
  width : Nat
  arrayDepth : Int
  dictDepth : Int
deriving DecidableEq, Repr

/-- Go `Lexer.next`: `none` models the `eof` sentinel rune. -/
def nextL (l : Lexer) : Option Char × Lexer :=
  match l.input.get? l.pos with
  | none => (none, { l with width := 0 })
  | some c => (some c, { l with width := 1, pos := l.pos + 1 })

/-- Go `Lexer.backup`. -/
def backup (l : Lexer) : Lexer := { l with pos := l.pos - l.width }

/-- Go `Lexer.peek`: next followed by backup (the width side effect is kept,
as in the source). -/
def peekL (l : Lexer) : Option Char × Lexer :=
  let (c, l) := nextL l
  (c, backup l)

/-- The pending text `l.input[l.start:l.pos]`. -/
def sliceVal (l : Lexer) : List Char := (l.input.drop l.start).take (l.pos - l.start)

/-- Go `Lexer.emit`: build the item for the pending text and advance `start`. -/
def emit (t : ItemType) (l : Lexer) : Item × Lexer :=
  (⟨t, l.start, sliceVal l⟩, { l with start := l.pos })

/-- Go `Lexer.errorf`: an `ItemError` carrying the message, at `l.start`. -/
def errorItem (msg : List Char) (l : Lexer) : Item :=
  ⟨.ItemError, l.start, msg⟩

/-- Go `Lexer.accept`. -/
def accept (valid : List Char) (l : Lexer) : Bool × Lexer :=
  let (r, l) := nextL l
  match r with
  | some c => if valid.contains c then (true, l) else (false, backup l)
  | none => (false, backup l)

/-- Go `Lexer.acceptRun`, with explicit fuel (each consuming iteration
advances `pos`, so `input.length - pos + 1` units always suffice). -/
def acceptRunF (valid : List Char) : Nat → Lexer → Lexer
  | 0, l => l
  | fuel+1, l =>
    let (r, l') := nextL l
    match r with
    | some c => if valid.contains c then acceptRunF valid fuel l' else backup l'
    | none => backup l'

def acceptRun (valid : List Char) (l : Lexer) : Lexer :=
  acceptRunF valid (l.input.length - l.pos + 1) l

def digits : List Char := "0123456789".data

/-- Go `Lexer.scanEOL`. -/
def scanEOL (l : Lexer) : Bool × Lexer :=
  let (c, l) := peekL l
  match c with
  | none => (false, l)
  | some c' =>
    if isEndOfLine c' then
      let (r, l) := nextL l
      if r = some '\r' then
        let (_, l) := accept ['\n'] l
        (true, l)
      else (true, l)
    else (false, l)

/-- Go `Lexer.scanNumber`. -/
def scanNumber (l : Lexer) : Bool × Lexer :=
  let (_, l) := accept ['+', '-'] l
  let l := acceptRun digits l
  let (dot, l) := accept ['.'] l
  let l := if dot then acceptRun digits l else l
  let (p, l) := peekL l
  match p with
  | none => (true, l)
  | some c =>
    if isDelim c || unicodeIsSpace c then (true, l)
    else
      let (_, l) := nextL l
      (false, l)

/-- The `keytoks` map from pdflex.go. -/
def keytoks (w : List Char) : Option ItemType :=
  if w = "obj".data then some .ItemObj
  else if w = "endobj".data then some .ItemEndObj
  else if w = "stream".data then some .ItemStream
  else if w = "endstream".data then some .ItemEndStream
  else if w = "trailer".data then some .ItemTrailer
  else if w = "xref".data then some .ItemXref
  else if w = "startxref".data then some .ItemStartXref
  else if w = "true".data then some .ItemTrue
  else if w = "false".data then some .ItemFalse
  else if w = "null".data then some .ItemNull
  else none

/-- The lexer states (`stateFn` values) of pdflex.go. -/
inductive StateF where
  | default
  | spaceS
  | nameS
  | numberS
  | wordS
  | stringS
  | hexS
  | commentS
  | leftDictS
  | rightDictS
  | streamS
deriving DecidableEq, Repr

/-- Uppercase hex digit. -/
def hexDigitU (n : Nat) : Char :=
  if n < 10 then Char.ofNat (48 + n) else Char.ofNat (55 + n)

def hexDigitsF : Nat → Nat → List Char
  | 0, _ => []
  | fuel+1, n => if n = 0 then [] else hexDigitsF fuel (n / 16) ++ [hexDigitU (n % 16)]

/-- Go `%#U` rendering of a rune: `U+` plus at least four uppercase hex
digits, then the quoted character when it is printable (printability
restricted to ASCII here; the text is diagnostic only). -/
def formatU (c : Char) : List Char :=
  let ds := if c.toNat = 0 then ['0'] else hexDigitsF 8 c.toNat
  let ds := List.replicate (4 - ds.length) '0' ++ ds
  let quoted :=
    if 0x20 ≤ c.toNat && c.toNat ≤ 0x7E then [' ', '\''] ++ [c] ++ ['\''] else []
  "U+".data ++ ds ++ quoted

/-- Go `%q` rendering of a string (basic escaping; diagnostic only). -/
def goQuote (s : List Char) : List Char :=
  let esc := fun (c : Char) =>
    if c = '"' then ['\\', '"']
    else if c = '\\' then ['\\', '\\']
    else if c = '\n' then ['\\', 'n']
    else if c = '\r' then ['\\', 'r']
    else if c = '\t' then ['\\', 't']
    else [c]
  ['"'] ++ (s.map esc).flatten ++ ['"']

/-- The loop of Go `lexStringObj` (fuel: every iteration consumes at least
one rune). Carries the paren `balance`. -/
def stringLoopF : Nat → Int → Lexer → List Item × Option (StateF × Lexer)
  | 0, _, _ => ([], none)
  | fuel+1, balance, l =>
    let (r, l) := nextL l
    match r with
    | none => ([errorItem ("unterminated string object").data l], none)
    | some c =>
      if c = '\\' then
        -- escaped parens don't count towards balance
        let (_, l) := accept ['(', ')'] l
        stringLoopF fuel balance l
      else if c = '(' then stringLoopF fuel (balance + 1) l
      else if c = ')' then
        if balance - 1 ≤ 0 then
          let out := emit .ItemString l
          ([out.1], some (.default, out.2))
        else stringLoopF fuel (balance - 1) l
      else stringLoopF fuel balance l

/-- The loop of Go `lexName`. -/
def nameLoopF : Nat → Lexer → List Item × Option (StateF × Lexer)
  | 0, _ => ([], none)
  | fuel+1, l =>
    let (r, l) := nextL l
    match r with
    | none =>
      let out := emit .ItemName (backup l)
      ([out.1], some (.default, out.2))
    | some c =>
      if isDelim c || unicodeIsSpace c then
        let out := emit .ItemName (backup l)
        ([out.1], some (.default, out.2))
      else if 0x20 < c.toNat && c.toNat < 0x7F then nameLoopF fuel l
      else ([errorItem ("illegal character in name: ".data ++ formatU c) l], none)

def digits16 : List Char := "0123456789abcdefABCDEF".data

/-- The loop of Go `lexHexObj`. -/
def hexLoopF : Nat → Lexer → List Item × Option (StateF × Lexer)
  | 0, _ => ([], none)
  | fuel+1, l =>
    let (r, l) := nextL l
    match r with
    | none => ([errorItem ("unterminated hexstring").data l], none)
    | some c =>
      if digits16.contains c || unicodeIsSpace c then hexLoopF fuel l
      else if c = '>' then
        let out := emit .ItemHexString l
        ([out.1], some (.default, out.2))
      else ([errorItem ("illegal character in hexstring: ".data ++ formatU c) l], none)

/-- The loop of Go `lexSpace`. -/
def spaceLoopF : Nat → Lexer → Lexer
  | 0, l => l
  | fuel+1, l =>
    let (c, l) := peekL l
    match c with
    | none => l
    | some c' =>
      if isSpace c' then
        let (_, l) := nextL l
        spaceLoopF fuel l
      else l

def stepSpace (l : Lexer) : List Item × Option (StateF × Lexer) :=
  let out := emit .ItemSpace (spaceLoopF (l.input.length - l.pos + 1) l)
  ([out.1], some (.default, out.2))

/-- The loop of Go `lexComment`; `r` tracks the last consumed rune (`none`
models the zero value of `var r rune`). -/
def commentLoopF : Nat → Option Char → Lexer → List Item × Option (StateF × Lexer)
  | 0, _, _ => ([], none)
  | fuel+1, r, l =>
    let (c, l) := peekL l
    match c with
    | some c' =>
      if isEndOfLine c' then
        -- loop exit; the source then checks the last consumed rune for CRLF
        let out := emit .ItemComment (if r = some '\r' then (accept ['\n'] l).2 else l)
        ([out.1], some (.default, out.2))
      else
        let (r', l) := nextL l
        match r' with
        | none =>
          let out := emit .ItemComment l
          ([out.1], some (.default, out.2))
        | some c'' => commentLoopF fuel (some c'') l
    | none =>
      -- peek saw eof; the loop body then reads eof and emits the comment
      let out := emit .ItemComment l
      ([out.1], some (.default, out.2))

/-- The loop of Go `lexWord`. -/
def wordLoopF : Nat → Lexer → Lexer
  | 0, l => l
  | fuel+1, l =>
    let (c, l) := peekL l
    match c with
    | none => l
    | some c' =>
      if isAlphaNumeric c' then
        let (_, l) := nextL l
        wordLoopF fuel l
      else l

def stepWord (l : Lexer) : List Item × Option (StateF × Lexer) :=
  let l := wordLoopF (l.input.length - l.pos + 1) l
  match keytoks (sliceVal l) with
  | some tok =>
    let out := emit tok l
    if tok = .ItemStream then ([out.1], some (.streamS, out.2))
    else ([out.1], some (.default, out.2))
  | none =>
    let out := emit .ItemWord l
    ([out.1], some (.default, out.2))

def stepNumber (l : Lexer) : List Item × Option (StateF × Lexer) :=
  let (ok, l) := scanNumber l
  if ok then
    let out := emit .ItemNumber l
    ([out.1], some (.default, out.2))
  else ([errorItem ("bad number syntax: ".data ++ goQuote (sliceVal l)) l], none)

/-- Go `strings.Index` on rune lists. -/
def findIndex (needle : List Char) : List Char → Option Nat
  | [] => if needle = [] then some 0 else none
  | c :: rest =>
    if needle.isPrefixOf (c :: rest) then some 0
    else
      match findIndex needle rest with
      | some i => some (i + 1)
      | none => none

/-- The backward walk of Go `lexStream` past trailing whitespace: drop
White_Space runes from the right end. -/
def trimRightSpaces (s : List Char) : List Char :=
  ((s.reverse).dropWhile unicodeIsSpace).reverse

def rightStreamChars : List Char := "endstream".data

def stepStream (l0 : Lexer) : List Item × Option (StateF × Lexer) :=
  let ok := (scanEOL l0).1
  let l := (scanEOL l0).2
  if !ok then
    let pc := (peekL l).1
    let l := (peekL l).2
    let rendered := match pc with
      | some c => formatU c
      | none => "U+-0001".data  -- the eof sentinel rune; diagnostic only
    ([errorItem ("expected EOL terminator for stream keyword, got: ".data ++ rendered) l],
      none)
  else
    let out1 := emit .ItemEOL l
    let l := out1.2
    match findIndex rightStreamChars (l.input.drop l.pos) with
    | none => ([out1.1, errorItem ("unclosed stream").data l], none)
    | some i =>
      let substr := trimRightSpaces ((l.input.drop l.pos).take i)
      let out2 := emit .ItemStreamBody { l with pos := l.pos + substr.length }
      ([out1.1, out2.1], some (.default, out2.2))

def stepLeftDict (l : Lexer) : List Item × Option (StateF × Lexer) :=
  let out := emit .ItemLeftDict { l with pos := l.pos + 2 }
  ([out.1], some (.default, out.2))

def stepRightDict (l : Lexer) : List Item × Option (StateF × Lexer) :=
  let out := emit .ItemRightDict { l with pos := l.pos + 2 }
  ([out.1], some (.default, out.2))

/-- The body shared by the `r == eof` case of Go `lexDefault` and the
`fallthrough` from its stray-`>` branch. -/
def eofBody (l : Lexer) : List Item × Option (StateF × Lexer) :=
  if l.arrayDepth > 0 then ([errorItem ("unterminated array").data l], none)
  else if l.dictDepth > 0 then ([errorItem ("unterminated dict").data l], none)
  else
    ([(emit .ItemEOF l).1], none)

/-- The dispatch of Go `lexDefault` on a successfully read rune `c`
(cases in source order; the stray-`>` branch falls through into `eofBody`,
exactly as the Go `fallthrough` does). -/
def stepDefaultChar (c : Char) (l : Lexer) : List Item × Option (StateF × Lexer) :=
  if c = '\r' then
    let out := emit .ItemEOL (accept ['\n'] l).2
    ([out.1], some (.default, out.2))
  else if c = '\n' then
    let out := emit .ItemEOL l
    ([out.1], some (.default, out.2))
  else if unicodeIsSpace c then ([], some (.spaceS, l))
  else if c = '/' then ([], some (.nameS, l))
  else if c = '+' || c = '-' || c = '.' || ('0' ≤ c && c ≤ '9') then
    ([], some (.numberS, backup l))
  else if isAlphaNumeric c then ([], some (.wordS, l))
  else if c = '(' then ([], some (.stringS, l))
  else if c = '<' then
    let p := (peekL l).1
    let l := (peekL l).2
    if p = some '<' then
      ([], some (.leftDictS, { backup l with dictDepth := l.dictDepth + 1 }))
    else ([], some (.hexS, l))
  else if c = '[' then
    let out := emit .ItemLeftArray l
    ([out.1], some (.default, { out.2 with arrayDepth := out.2.arrayDepth + 1 }))
  else if c = ']' then
    let l := { l with arrayDepth := l.arrayDepth - 1 }
    if l.arrayDepth < 0 then ([errorItem ("unexexpected array terminator").data l], none)
    else
      let out := emit .ItemRightArray l
      ([out.1], some (.default, out.2))
  else if c = '%' then ([], some (.commentS, l))
  else if c = '>' then
    let p := (peekL l).1
    let l := (peekL l).2
    if p = some '>' then
      let l := { l with dictDepth := l.dictDepth - 1 }
      if l.dictDepth < 0 then ([errorItem ("unexexpected dict terminator").data l], none)
      else ([], some (.rightDictS, backup l))
    else eofBody l
  else ([errorItem ("illegal character: ".data ++ formatU c) l], none)

/-- Go `lexDefault`: read a rune and dispatch. -/
def stepDefault (l0 : Lexer) : List Item × Option (StateF × Lexer) :=
  match (nextL l0).1 with
  | none => eofBody (nextL l0).2
  | some c => stepDefaultChar c (nextL l0).2

/-- One state-function invocation. -/
def stepState (s : StateF) (l : Lexer) : List Item × Option (StateF × Lexer) :=
  match s with
  | .default => stepDefault l
  | .spaceS => stepSpace l
  | .nameS => nameLoopF (l.input.length - l.pos + 1) l
  | .numberS => stepNumber l
  | .wordS => stepWord l
  | .stringS => stringLoopF (l.input.length - l.pos + 1) 1 l
  | .hexS => hexLoopF (l.input.length - l.pos + 1) l
  | .commentS => commentLoopF (l.input.length - l.pos + 1) none l
  | .leftDictS => stepLeftDict l
  | .rightDictS => stepRightDict l
  | .streamS => stepStream l

/-- Go `Lexer.run`: iterate the state machine collecting the emitted items,
with explicit fuel (one unit per state invocation). -/
def runState : Nat → StateF → Lexer → List Item
  | 0, _, _ => []
  | fuel+1, s, l =>
    match stepState s l with
    | (items, some (s', l')) => items ++ runState fuel s' l'
    | (items, none) => items

def initLexer (input : List Char) : Lexer := ⟨input, 0, 0, 0, 0, 0⟩

/-- The full item sequence sent on the channel for a given input (the fuel
covers the worst case of two state invocations per rune). -/
def lexAll (input : List Char) : List Item :=
  runState (2 * input.length + 4) .default (initLexer input)

/-- Concatenation of the raw text of a list of items. -/
def concatVals (items : List Item) : List Char :=
  (items.map Item.val).flatten

/-- The result of the n-th `NextItem` call (counting from 0) on a fresh
lexer for `input`; `none` models a receive that never returns because the
producing goroutine has exited. -/
def nextItemAt (input : List Char) (n : Nat) : Option Item :=
  (lexAll input).get? n

/-- EOF and Error are the terminal item kinds: the states that emit them
return a nil next state, ending the run loop. -/
def isTermItem (it : Item) : Prop := it.typ = .ItemEOF ∨ it.typ = .ItemError

instance (it : Item) : Decidable (isTermItem it) := by
  unfold isTermItem; infer_instance

/-- Chunk discipline for one state invocation: if the machine continues,
no terminal item was emitted; if it stops, a terminal item occurs only in
final position. -/
def ChunkOK (out : List Item × Option (StateF × Lexer)) : Prop :=
  match out.2 with
  | some _ => ∀ it ∈ out.1, ¬ isTermItem it
  | none => ∀ i it, out.1.get? i = some it → isTermItem it → i + 1 = out.1.length

end Pdflex

namespace PdflexFix

open Pdflex

/-- `parseState` from fix.go. -/
inductive ParseState where
  | outside
  | inside
  | eofS
deriving DecidableEq, Repr

/-- `Parser` from fix.go. The embedded `*pdflex.Lexer` (a channel of items)
is modelled by `toks`, the list of items not yet received. -/
structure Parser where
  From : Int
  LastXref : Int
  Idx : Int
  Offset : Int
  Entries : Int
  toks : List Item
  State : ParseState
  Scratch : List Char
deriving DecidableEq, Repr

/-- `Parser{Lexer: pdflex.NewLexer(...)}` as constructed in the tool:
all other fields take their Go zero values. -/
def initParser (toks : List Item) : Parser :=
  ⟨0, 0, 0, 0, 0, toks, .outside, []⟩

/-- Go `NextItem` (a receive on the lexer's channel). On an exhausted list
the Go receive would block forever; that case is modelled by a synthetic
eof item and is unreachable for streams ending in `ItemEOF`, which the
parser never reads past. -/
def nextItemP (p : Parser) : Item × Parser :=
  match p.toks with
  | [] => (⟨.ItemEOF, 0, []⟩, p)
  | t :: ts => (t, { p with toks := ts })

/-- Go `Parser.CheckToken`. -/
def checkToken (t : ItemType) (acc : Bool) (p0 : Parser) : Item × Bool × Parser :=
  let i := (nextItemP p0).1
  let p1 := (nextItemP p0).2
  let p2 := if acc then { p1 with Scratch := p1.Scratch ++ i.val } else p1
  let p3 := if i.typ = .ItemEOF then { p2 with State := .eofS } else p2
  (i, i.typ = t, p3)

/-- Go `strconv.Atoi`: optional sign, then at least one digit, all digits
(the values arising here are far below the int64 range cutoff). -/
def atoi (s : List Char) : Option Int :=
  let signAndDigits : Int × List Char :=
    match s with
    | '+' :: rest => (1, rest)
    | '-' :: rest => (-1, rest)
    | _ => (1, s)
  let sign := signAndDigits.1
  let ds := signAndDigits.2
  if ds = [] then none
  else if ds.all (fun c => '0' ≤ c && c ≤ '9') then
    some (sign * (ds.foldl (fun n c => n * 10 + ((c.toNat : Int) - 48)) 0))
  else none

/-- `Row` from fix.go. -/
structure Row where
  Offset : Int
  Generation : Int
  Active : Bool
deriving DecidableEq, Repr

/-- Go `Parser.FindRow`. `none` models the error return. The `bailout`
accumulator and its (partial) flushing behaviour are kept exactly: note
that the source returns from the two `strconv.Atoi` failure paths without
flushing `bailout` to `Scratch`. -/
def findRow (p : Parser) : Option Row × Parser :=
  let r1 := checkToken .ItemNumber false p
  let b1 := r1.1.val
  if !r1.2.1 || r1.1.val.length ≠ 10 then
    (none, { r1.2.2 with Scratch := r1.2.2.Scratch ++ b1 })
  else
    match atoi r1.1.val with
    | none =>
      -- something like +12.5 passes the lexer but not Atoi; the source
      -- returns here without writing bailout to Scratch
      (none, r1.2.2)
    | some off =>
      let r2 := checkToken .ItemSpace false r1.2.2
      let b2 := b1 ++ r2.1.val
      if !r2.2.1 || r2.1.val.length ≠ 1 then
        (none, { r2.2.2 with Scratch := r2.2.2.Scratch ++ b2 })
      else
        let r3 := checkToken .ItemNumber false r2.2.2
        let b3 := b2 ++ r3.1.val
        if !r3.2.1 || r3.1.val.length ≠ 5 then
          (none, { r3.2.2 with Scratch := r3.2.2.Scratch ++ b3 })
        else
          match atoi r3.1.val with
          | none => (none, r3.2.2)
          | some gen =>
            let r4 := checkToken .ItemSpace false r3.2.2
            let b4 := b3 ++ r4.1.val
            if !r4.2.1 || r4.1.val.length ≠ 1 then
              (none, { r4.2.2 with Scratch := r4.2.2.Scratch ++ b4 })
            else
              let r5 := checkToken .ItemWord false r4.2.2
              let b5 := b4 ++ r5.1.val
              if !r5.2.1 || r5.1.val.length ≠ 1 ||
                  !(r5.1.val = "n".data || r5.1.val = "f".data) then
                (none, { r5.2.2 with Scratch := r5.2.2.Scratch ++ b5 })
              else
                (some ⟨off, gen, r5.1.val = "n".data⟩, r5.2.2)

/-- Go `Parser.ResetToHere`. -/
def resetToHere (p : Parser) : Parser :=
  let p := if p.State ≠ .eofS then { p with State := .outside } else p
  { p with From := (p.Scratch.length : Int) - 1,
           LastXref := -1, Idx := -1, Offset := -1, Entries := -1 }

/-- Go `Parser.SeemsLegit`. -/
def seemsLegit (p : Parser) : Bool :=
  !(p.LastXref < 0 || p.Idx < 0 || p.Offset < 0 || p.Entries < 0)

def natDecF : Nat → Nat → List Char
  | 0, _ => []
  | fuel+1, n =>
    if n < 10 then [Char.ofNat (48 + n)]
    else natDecF fuel (n / 10) ++ [Char.ofNat (48 + n % 10)]

/-- Go `fmt.Sprintf` with verb `%d` on an int. -/
def intToDec (n : Int) : List Char :=
  if n < 0 then '-' :: natDecF (n.natAbs + 1) n.natAbs
  else natDecF (n.toNat + 1) n.toNat

/-- Go `%.10d` / `%.5d`: sign, then the decimal digits zero-padded on the
left to the precision. -/
def intToDecPad (w : Nat) (n : Int) : List Char :=
  let ds := natDecF (n.natAbs + 1) n.natAbs
  let ds := List.replicate (w - ds.length) '0' ++ ds
  if n < 0 then '-' :: ds else ds

/-- The scanning loop of Go `Parser.MaybeFindXref` (fuel: one unit per
received item). -/
def findXrefLoopF : Nat → Parser → Bool × Parser
  | 0, p => (false, p)
  | fuel+1, p =>
    let i := (nextItemP p).1
    let p1 := (nextItemP p).2
    if i.typ = .ItemEOF then (false, { p1 with State := .eofS })
    else
      let p2 := { p1 with Scratch := p1.Scratch ++ i.val }
      if i.typ = .ItemXref then
        (true, { p2 with
                  State := .inside
                  LastXref := (p2.Scratch.length : Int) - i.val.length })
      else findXrefLoopF fuel p2

/-- Go `Parser.MaybeFindXref`. The `panic` on being called while inside an
xref is an assertion; it is modelled as a plain `false` return. -/
def maybeFindXref (p : Parser) : Bool × Parser :=
  if p.State = .eofS then (false, p)
  else if p.State ≠ .outside then (false, p)
  else findXrefLoopF (p.toks.length + 1) p

/-- The startxref-seeking loop of the `ItemTrailer` branch of Go
`Parser.MaybeFindHeader`. -/
def trailerLoopF : Nat → Parser → Bool × Parser
  | 0, p => (false, p)
  | fuel+1, p =>
    let r1 := checkToken .ItemEOF true p
    if r1.2.1 then (false, { r1.2.2 with State := .eofS })
    else if r1.1.typ = .ItemStartXref then
      let r2 := checkToken .ItemEOL true r1.2.2
      if !r2.2.1 then (false, resetToHere r2.2.2)
      else
        let r3 := checkToken .ItemNumber false r2.2.2
        if !r3.2.1 then
          (false, resetToHere { r3.2.2 with Scratch := r3.2.2.Scratch ++ r3.1.val })
        else
          -- the lexed number is discarded; the decimal rendering of the
          -- current LastXref is written in its place
          (false, resetToHere
            { r3.2.2 with Scratch := r3.2.2.Scratch ++ intToDec r3.2.2.LastXref })
    else trailerLoopF fuel r1.2.2

/-- Go `Parser.MaybeFindHeader`. The `SeemsLegit` panic assertion at the
end of the header branch is modelled as returning normally. -/
def maybeFindHeader (p : Parser) : Bool × Parser :=
  if p.State ≠ .inside then (false, resetToHere p)
  else
    let i := (nextItemP p).1
    let p1 := { (nextItemP p).2 with
                Scratch := (nextItemP p).2.Scratch ++ (nextItemP p).1.val }
    if i.typ = .ItemTrailer then trailerLoopF (p1.toks.length + 1) p1
    else if i.typ = .ItemNumber then
      match atoi i.val with
      | none => (false, resetToHere p1)
      | some off =>
        let p2 := { p1 with Offset := off }
        let r1 := checkToken .ItemSpace true p2
        if !r1.2.1 then (false, resetToHere r1.2.2)
        else
          let r2 := checkToken .ItemNumber true r1.2.2
          if !r2.2.1 then (false, resetToHere r2.2.2)
          else
            match atoi r2.1.val with
            | none => (false, resetToHere r2.2.2)
            | some ent =>
              let p3 := { r2.2.2 with Entries := ent }
              let r3 := checkToken .ItemEOL true p3
              if !r3.2.1 then (false, resetToHere r3.2.2)
              else (true, { r3.2.2 with Idx := r3.2.2.Offset })
    else if i.typ = .ItemEOF then (false, { p1 with State := .eofS })
    else (false, resetToHere p1)

/-- Go `locateObj` (fix.go). -/
def locateObj (s : List Char) (i : Int) : Int :=
  match findIndex ('\n' :: (intToDec i ++ " 0 obj".data)) s with
  | some idx => (idx : Int) + 1
  | none =>
    match findIndex ('\r' :: (intToDec i ++ " 0 obj".data)) s with
    | some idx => (idx : Int) + 1
    | none => -1

/-- The row re-emission fragment of Go `Parser.FixXrefs` for entry `i` of
the current subsection (Go slices `Scratch[From:LastXref]`; the negative
or out-of-range cases would panic in Go and are unreachable on the flows
considered, the `Int.toNat` truncation standing in for them). -/
def rowWrite (row : Row) (i : Nat) (p : Parser) : Parser :=
  if row.Active then
    let dom := (p.Scratch.take p.LastXref.toNat).drop p.From.toNat
    let objOffset := locateObj dom (p.Idx + i)
    let objOffset : Int := if objOffset < 0 then row.Offset else objOffset + p.From
    { p with Scratch := p.Scratch ++
        (intToDecPad 10 objOffset ++ [' '] ++ intToDecPad 5 row.Generation ++ " n".data) }
  else
    { p with Scratch := p.Scratch ++
        (intToDecPad 10 row.Offset ++ [' '] ++ intToDecPad 5 row.Generation ++ " f".data) }

/-- The line-terminator acceptance fragment of Go `Parser.FixXrefs`, run
after each successfully parsed row: accept one CRLF `EOL` token, or a
one-byte `Space` token followed by a one-byte `EOL` token. -/
def checkLineTerm (p : Parser) : Bool × Parser :=
  let r1 := checkToken .ItemEOL true p
  if r1.2.1 = true ∧ r1.1.val.length = 2 then (true, r1.2.2)
  else if r1.1.typ = .ItemSpace ∧ r1.1.val.length = 1 then
    let r2 := checkToken .ItemEOL true r1.2.2
    if r2.2.1 = true ∧ r2.1.val.length = 1 then (true, r2.2.2) else (false, r2.2.2)
  else (false, r1.2.2)

/-- Control points of the `FixXrefs` loop: `main` is the top of `mainLoop`;
`entries i (k+1)` is about to parse entry `i` of the current subsection
with `k+1` entries left; `entries _ 0` is the `MaybeFindHeader` call of
the inner loop. -/
inductive Phase where
  | main
  | entries (i : Nat) (remaining : Nat)
deriving DecidableEq, Repr

/-- The parsing loop of Go `Parser.FixXrefs`, with explicit fuel (one unit
per phase transition; every transition that recurses consumes at least one
token on the flows considered). The `panic` assertions of the source are
modelled as plain returns. -/
def fixLoop : Nat → Phase → Parser → Parser
  | 0, _, p => p
  | fuel+1, .main, p =>
    let fx := maybeFindXref p
    if !fx.1 then fx.2
    else
      let r := checkToken .ItemEOL true fx.2
      if !r.2.1 then fixLoop fuel .main (resetToHere r.2.2)
      else fixLoop fuel (.entries 0 0) r.2.2
  | fuel+1, .entries _ 0, p =>
    let h := maybeFindHeader p
    if !h.1 then fixLoop fuel .main (resetToHere h.2)
    else fixLoop fuel (.entries 0 h.2.Entries.toNat) h.2
  | fuel+1, .entries i (k+1), p =>
    let fr := findRow p
    match fr.1 with
    | none => fixLoop fuel .main (resetToHere fr.2)
    | some row =>
      let ct := checkLineTerm (rowWrite row i fr.2)
      if ct.1 then fixLoop fuel (.entries (i+1) k) ct.2
      else fixLoop fuel .main (resetToHere ct.2)

/-- Phases of the well-formedness recognizer for C6, mirroring the
control points of the fixup loop. -/
inductive WfPhase where
  | outside
  | rows (i : Nat) (n : Nat)
  | trailer
deriving DecidableEq, Repr

/-- Well-formedness recognizer for the fixup-identity claim, following the
specification's description of a healthy PDF: the token stream decomposes
into non-xref chunks and xref sections; each section is `xref`, an EOL, a
run of subsections (header `offset count` EOL, then `count` canonical
20-byte rows whose stored offsets agree with the object locations found in
the output so far), a trailer, and a `startxref` whose number equals the
decimal offset of the section's `xref` keyword; the file ends with the
EOF item (empty text). `pos` counts input bytes already consumed, `from`
and `lastXref` track the values the parser will hold, and `idx + i` is
the object number of the next row. One unit of fuel is spent per token
examined, so any fuel above the token count is sufficient. -/
def wfLoop : Nat → WfPhase → List Char → Nat → Int → Nat → Int → List Item → Bool
  | 0, _, _, _, _, _, _, _ => false
  | _+1, .outside, _, _, _, _, _, [] => false
  | wfuel+1, .outside, eye, pos, from_, lx, ix, t :: rest =>
    if t.typ = .ItemEOF then decide (t.val = []) && decide (rest = [])
    else if t.typ = .ItemXref then
      decide (t.val = "xref".data) &&
      (match rest with
       | [] => false
       | e :: rest2 =>
         decide (e.typ = .ItemEOL) &&
         wfLoop wfuel (.rows 0 0) eye (pos + 4 + e.val.length) from_ pos 0 rest2)
    else wfLoop wfuel .outside eye (pos + t.val.length) from_ lx ix rest
  | _+1, .rows _ 0, _, _, _, _, _, [] => false
  | wfuel+1, .rows _ 0, eye, pos, from_, lastXref, _, t :: rest =>
    if t.typ = .ItemTrailer then
      wfLoop wfuel .trailer eye (pos + t.val.length) from_ lastXref 0 rest
    else if t.typ = .ItemNumber then
      match rest with
      | s :: n2 :: e :: rest3 =>
        match atoi t.val, atoi n2.val with
        | some off, some ent =>
          decide (s.typ = .ItemSpace) && decide (n2.typ = .ItemNumber) &&
          decide (e.typ = .ItemEOL) &&
          decide (0 ≤ off) && decide (0 ≤ ent) &&
          wfLoop wfuel (.rows 0 ent.toNat) eye
            (pos + t.val.length + s.val.length + n2.val.length + e.val.length)
            from_ lastXref off rest3
        | _, _ => false
      | _ => false
    else false
  | wfuel+1, .rows i (n+1), eye, pos, from_, lastXref, idx, toks =>
    match toks with
    | t1 :: t2 :: t3 :: t4 :: t5 :: rest =>
      decide (t1.typ = .ItemNumber) && decide (t2.typ = .ItemSpace) &&
      decide (t3.typ = .ItemNumber) && decide (t4.typ = .ItemSpace) &&
      decide (t5.typ = .ItemWord) &&
      (match atoi t1.val, atoi t3.val with
       | some o, some g =>
         decide (t1.val.length = 10) && decide (intToDecPad 10 o = t1.val) &&
         decide (t2.val = [' ']) &&
         decide (t3.val.length = 5) && decide (intToDecPad 5 g = t3.val) &&
         decide (t4.val = [' ']) &&
         (decide (t5.val = "f".data) ||
          (decide (t5.val = "n".data) &&
           (decide (locateObj ((eye.take lastXref).drop from_.toNat) (idx + i) < 0) ||
            decide (locateObj ((eye.take lastXref).drop from_.toNat) (idx + i) + from_ = o)))) &&
         (match rest with
          | [] => false
          | u :: rest2 =>
            if decide (u.typ = .ItemEOL) && decide (u.val.length = 2) then
              wfLoop wfuel (.rows (i+1) n) eye (pos + 20) from_ lastXref idx rest2
            else if decide (u.typ = .ItemSpace) && decide (u.val.length = 1) then
              match rest2 with
              | [] => false
              | v :: rest3 =>
                decide (v.typ = .ItemEOL) && decide (v.val.length = 1) &&
                wfLoop wfuel (.rows (i+1) n) eye (pos + 20) from_ lastXref idx rest3
            else false)
       | _, _ => false)
    | _ => false
  | _+1, .trailer, _, _, _, _, _, [] => false
  | wfuel+1, .trailer, eye, pos, from_, lastXref, _, t :: rest =>
    if t.typ = .ItemEOF then false
    else if t.typ = .ItemStartXref then
      match rest with
      | e :: num :: rest2 =>
        decide (e.typ = .ItemEOL) && decide (num.typ = .ItemNumber) &&
        decide (num.val = intToDec lastXref) &&
        wfLoop wfuel .outside eye
          (pos + t.val.length + e.val.length + num.val.length)
          ((pos + t.val.length + e.val.length + num.val.length : Int) - 1) 0 0 rest2
      | _ => false
    else wfLoop wfuel .trailer eye (pos + t.val.length) from_ lastXref 0 rest

/-- A healthy fixup input in the sense of C6: the lexed stream is
recognised by `wfLoop` from the initial parser state. -/
def wfFixInput (eye : List Char) : Bool :=
  wfLoop ((lexAll eye).length + 1) .outside eye 0 0 0 0 (lexAll eye)

/-- Go `Parser.FixXrefs`, returning the final scratch buffer. -/
def fixXrefs (p : Parser) : List Char :=
  (fixLoop (2 * p.toks.length + 4) .main p).Scratch

/-- The parser as created by `fix` in the tool: a fresh lexer on `s`. -/
def parserOn (s : List Char) : Parser := initParser (lexAll s)

/-- Field discipline of the parser operations that only receive tokens and
append to scratch: `From` and `LastXref` are untouched, the state is never
newly set to `inside`, and the scratch buffer only grows. -/
def Tame (p q : Parser) : Prop :=
  q.From = p.From ∧ q.LastXref = p.LastXref ∧
  (q.State = .inside → p.State = .inside) ∧
  p.Scratch.length ≤ q.Scratch.length

/-- The C8 invariant: while the parser is inside an xref, `LastXref` is a
real scratch offset and `From` does not exceed it; `From` never exceeds
the scratch length. -/
def Inv (p : Parser) : Prop :=
  (p.State = .inside → 0 ≤ p.LastXref ∧ p.From ≤ p.LastXref) ∧
  p.From ≤ (p.Scratch.length : Int)

/-- Parser states reachable from a freshly constructed parser through the
operations the fixup routine performs. -/
inductive Reachable : Parser → Prop
  | init (toks : List Item) : Reachable (initParser toks)
  | findXref {p : Parser} : Reachable p → Reachable (maybeFindXref p).2
  | check {p : Parser} (t : ItemType) (b : Bool) :
      Reachable p → Reachable (checkToken t b p).2.2
  | row {p : Parser} : Reachable p → Reachable (findRow p).2
  | header {p : Parser} : Reachable p → Reachable (maybeFindHeader p).2
  | reset {p : Parser} : Reachable p → Reachable (resetToHere p)
  | write {p : Parser} (row : Row) (i : Nat) :
      Reachable p → Reachable (rowWrite row i p)
  | term {p : Parser} : Reachable p → Reachable (checkLineTerm p).2

/-- The token shapes accepted as an xref row line terminator by the
fixup loop: a single CRLF `EOL` token (two bytes), or a one-byte `Space`
token followed by a one-byte `EOL` token. -/
def termShape : List Item → Prop
  | [] => False
  | t :: rest =>
    (t.typ = .ItemEOL ∧ t.val.length = 2) ∨
    (t.typ = .ItemSpace ∧ t.val.length = 1 ∧
      match rest with
      | [] => False
      | u :: _ => u.typ = .ItemEOL ∧ u.val.length = 1)

instance : (ts : List Item) → Decidable (termShape ts)
  | [] => isFalse (fun h => h)
  | t :: rest => by
    unfold termShape
    cases rest <;> infer_instance

end PdflexFix

namespace PdflexClaims

open Pdflex PdflexFix

/-- The one-character input consisting of a stray `>`. -/
def inpGt : List Char := ">".data

/-- A stray `>` followed by further content. -/
def inpGtA : List Char := ">a".data

/-- `extraDictTerminator` from lexer_test.go. -/
def inpExtraDict : List Char := "/Author (Fred Nerk)>>".data

/-- `escapedSlash` from lexer_test.go (a raw Go string: four literal
backslashes). -/
def inpEscaped : List Char := r"/Author (Fred Nerk\\\\)".data

/-- A ten-character lexer-valid Number that `strconv.Atoi` rejects,
followed by the rest of an xref row. -/
def inpC2 : List Char := "+00000.123 00000 n".data

/-- A healthy one-section PDF skeleton: a body object, an xref section
whose single row is canonical and free, a trailer, and a startxref whose
value 15 is the byte offset of the `xref` keyword. -/
def inpC6 : List Char :=
  "1 0 obj\nendobj\nxref\n0 1\n0000000000 65535 f \ntrailer\nstartxref\n15\n%%EOF\n".data

/-- A parser whose next row parses but is followed by an illegal
terminator (Space then Word). -/
def qC9 : Parser := parserOn ("0000000000 65535 f x").data

def rowC9 : Row := ⟨0, 65535, false⟩

/-- C1: the round-trip claim is refuted on the code. On the input `">"`
the stray `>` falls through (Go `fallthrough`) into the eof branch of
`lexDefault`, so the lexer emits a single terminal EOF item whose val is
`">"`: the concatenation of the items before the EOF item is empty rather
than the input, and the EOF item's val is not empty. On `">a"` the byte
`a` is lost from the item stream altogether. -/
theorem c1_round_trip_fails_on_stray_gt :
    lexAll inpGt = [⟨.ItemEOF, 0, inpGt⟩] ∧
    concatVals (lexAll inpGt).dropLast = [] ∧
    lexAll inpGtA = [⟨.ItemEOF, 0, inpGt⟩] ∧
    concatVals (lexAll inpGtA) ≠ inpGtA := by decide

/-- C2: the bailout-flush claim is refuted on the code. Running `FindRow`
on the stream lexed from `"+00000.123 00000 n"`: the first token passes
the `ItemNumber` and length-10 checks, `strconv.Atoi` rejects it, and the
error return on that path skips the `Scratch.WriteString(bailout)` flush,
so the ten consumed bytes are lost (the scratch buffer stays empty). -/
theorem c2_bailout_not_flushed_on_atoi_failure :
    (lexAll inpC2).get? 0 = some ⟨.ItemNumber, 0, "+00000.123".data⟩ ∧
    (findRow (parserOn inpC2)).1 = none ∧
    (findRow (parserOn inpC2)).2.Scratch = [] := by decide

/-- C3: refuted on the code. In the default state with both depth counters
at zero, a `>` that is not followed by a second `>` does not produce an
Error item: the Go `fallthrough` lands in the `r == eof` case, which emits
a terminal EOF item that swallows the `>`. -/
theorem c3_stray_gt_is_not_an_error :
    lexAll inpGt = [⟨.ItemEOF, 0, inpGt⟩] ∧
    ∀ it ∈ lexAll inpGt, it.typ ≠ .ItemError := by decide

/-- C5: refuted on the code. Inside a literal string, `\` consumes the
following character only when it is `(` or `)` (the source uses
`l.accept("()")`), so in `/Author (Fred Nerk\\\\)` the fourth backslash
escapes the closing paren and the scan runs off the end of the input: the
third emitted item is an Error `"unterminated string object"`, not the
String token the repository's own `TestEscapedSlash` expects. -/
theorem c5_escape_only_consumes_parens :
    lexAll inpEscaped =
      [⟨.ItemName, 0, "/Author".data⟩,
       ⟨.ItemSpace, 7, " ".data⟩,
       ⟨.ItemError, 8, "unterminated string object".data⟩] := by decide

/-- C7 (counterexample): on `/Author (Fred Nerk)>>` there is no fifth item
at all — the stream has exactly four items — so the claim that the fifth
item is the Error is false as stated. -/
theorem c7_counterexample :
    ¬ ∃ it : Item, (lexAll inpExtraDict).get? 4 = some it ∧ it.typ = .ItemError := by
  decide

/-- C7 (amended): for the input `/Author (Fred Nerk)>>` the lexer emits
three items before the error, and the fourth item is an Error whose value
is exactly `"unexexpected dict terminator"` (misspelling included). -/
theorem c7_error_is_fourth_item :
    lexAll inpExtraDict =
      [⟨.ItemName, 0, "/Author".data⟩,
       ⟨.ItemSpace, 7, " ".data⟩,
       ⟨.ItemString, 8, "(Fred Nerk)".data⟩,
       ⟨.ItemError, 19, "unexexpected dict terminator".data⟩] := by decide

/-- C10: a lone sign or decimal point (or a sign followed only by `.`)
followed by a delimiter, whitespace or end of input is emitted as a
Number token containing no digits at all. -/
theorem c10_digitless_numbers :
    lexAll ("+").data = [⟨.ItemNumber, 0, ("+").data⟩, ⟨.ItemEOF, 1, []⟩] ∧
    lexAll ("-").data = [⟨.ItemNumber, 0, ("-").data⟩, ⟨.ItemEOF, 1, []⟩] ∧
    lexAll (".").data = [⟨.ItemNumber, 0, (".").data⟩, ⟨.ItemEOF, 1, []⟩] ∧
    lexAll ("+.").data = [⟨.ItemNumber, 0, ("+.").data⟩, ⟨.ItemEOF, 2, []⟩] ∧
    (lexAll ("+[").data).get? 0 = some ⟨.ItemNumber, 0, ("+").data⟩ ∧
    (lexAll ("+ ").data).get? 0 = some ⟨.ItemNumber, 0, ("+").data⟩ := by decide

/-- C4 (counterexample): on the empty input the first call returns the
terminal EOF item, and the second call returns nothing at all (the
producing goroutine has exited and the channel receive never returns), so
it does not return an EOF item as claimed. -/
theorem c4_counterexample :
    nextItemAt [] 0 = some ⟨.ItemEOF, 0, []⟩ ∧
    ¬ ∃ it : Item, nextItemAt [] 1 = some it ∧ it.typ = .ItemEOF := by decide

end PdflexClaims

namespace PdflexFix

open Pdflex

theorem tame_rfl (p : Parser) : Tame p p :=
  ⟨rfl, rfl, fun h => h, le_refl _⟩

theorem tame_trans {p q r : Parser} (h₁ : Tame p q) (h₂ : Tame q r) : Tame p r :=
  ⟨h₂.1.trans h₁.1, h₂.2.1.trans h₁.2.1,
   fun h => h₁.2.2.1 (h₂.2.2.1 h),
   le_trans h₁.2.2.2 h₂.2.2.2⟩

theorem tame_scratch_append (p : Parser) (s : List Char) :
    Tame p { p with Scratch := p.Scratch ++ s } := by
  refine ⟨rfl, rfl, fun h => h, ?_⟩
  simp

theorem tame_nextItemP (p : Parser) : Tame p (nextItemP p).2 := by
  unfold nextItemP
  split
  · exact tame_rfl p
  · exact ⟨rfl, rfl, fun h => h, le_refl _⟩

theorem tame_set_eof (p : Parser) : Tame p { p with State := .eofS } := by
  refine ⟨rfl, rfl, ?_, le_refl _⟩
  intro h
  simp at h

theorem tame_append_eof (p : Parser) (s : List Char) :
    Tame p { p with State := .eofS, Scratch := p.Scratch ++ s } := by
  refine ⟨rfl, rfl, ?_, ?_⟩
  · intro h
    simp at h
  · simp

theorem tame_checkToken (t : ItemType) (b : Bool) (p : Parser) :
    Tame p (checkToken t b p).2.2 := by
  unfold checkToken
  dsimp only
  refine tame_trans (tame_nextItemP p) ?_
  repeat' split
  all_goals first
    | exact tame_rfl _
    | exact tame_scratch_append _ _
    | exact tame_set_eof _
    | exact tame_append_eof _ _

theorem tame_findRow (p : Parser) : Tame p (findRow p).2 := by
  unfold findRow
  dsimp only
  generalize h1 : checkToken .ItemNumber false p = r1
  generalize h2 : checkToken .ItemSpace false r1.2.2 = r2
  generalize h3 : checkToken .ItemNumber false r2.2.2 = r3
  generalize h4 : checkToken .ItemSpace false r3.2.2 = r4
  generalize h5 : checkToken .ItemWord false r4.2.2 = r5
  have t1 : Tame p r1.2.2 := by rw [← h1]; exact tame_checkToken _ _ _
  have t2 : Tame p r2.2.2 := by
    rw [← h2]; exact tame_trans t1 (tame_checkToken _ _ _)
  have t3 : Tame p r3.2.2 := by
    rw [← h3]; exact tame_trans t2 (tame_checkToken _ _ _)
  have t4 : Tame p r4.2.2 := by
    rw [← h4]; exact tame_trans t3 (tame_checkToken _ _ _)
  have t5 : Tame p r5.2.2 := by
    rw [← h5]; exact tame_trans t4 (tame_checkToken _ _ _)
  repeat' split
  all_goals first
    | exact tame_trans t1 (tame_scratch_append _ _)
    | exact t1
    | exact tame_trans t2 (tame_scratch_append _ _)
    | exact t2
    | exact tame_trans t3 (tame_scratch_append _ _)
    | exact t3
    | exact tame_trans t4 (tame_scratch_append _ _)
    | exact t4
    | exact tame_trans t5 (tame_scratch_append _ _)
    | exact t5

theorem inv_of_tame {p q : Parser} (hp : Inv p) (h : Tame p q) : Inv q := by
  obtain ⟨hF, hL, hS, hlen⟩ := h
  constructor
  · intro hq
    rw [hF, hL]
    exact hp.1 (hS hq)
  · rw [hF]
    exact le_trans hp.2 (by exact_mod_cast hlen)

theorem inv_initParser (toks : List Item) : Inv (initParser toks) := by
  constructor
  · intro h; cases h
  · simp [initParser]

theorem inv_resetToHere (p : Parser) : Inv (resetToHere p) := by
  unfold resetToHere
  constructor
  · intro h
    revert h
    split <;> simp_all
  · split
    all_goals dsimp only
    all_goals omega

theorem inv_set_eof (p : Parser) (hp : Inv p) : Inv { p with State := .eofS } := by
  constructor
  · intro h
    simp at h
  · exact hp.2

theorem inv_checkToken (t : ItemType) (b : Bool) {p : Parser} (hp : Inv p) :
    Inv (checkToken t b p).2.2 :=
  inv_of_tame hp (tame_checkToken t b p)

theorem inv_findRow {p : Parser} (hp : Inv p) : Inv (findRow p).2 :=
  inv_of_tame hp (tame_findRow p)

theorem inv_rowWrite (row : Row) (i : Nat) {p : Parser} (hp : Inv p) :
    Inv (rowWrite row i p) := by
  unfold rowWrite
  split
  · exact inv_of_tame hp (tame_scratch_append _ _)
  · exact inv_of_tame hp (tame_scratch_append _ _)

theorem inv_checkLineTerm {p : Parser} (hp : Inv p) : Inv (checkLineTerm p).2 := by
  unfold checkLineTerm
  dsimp only
  have h1 := inv_checkToken .ItemEOL true hp
  have h2 := inv_checkToken .ItemEOL true h1
  repeat' split
  all_goals first | exact h1 | exact h2

theorem inv_findXrefLoopF : ∀ fuel {p : Parser}, Inv p → Inv (findXrefLoopF fuel p).2 := by
  intro fuel
  induction fuel with
  | zero => intro p hp; exact hp
  | succ n ih =>
    intro p hp
    unfold findXrefLoopF
    dsimp only
    have hmid : Inv (nextItemP p).2 := inv_of_tame hp (tame_nextItemP p)
    have h1 := hmid.2
    repeat' split
    · exact inv_set_eof _ hmid
    · -- the found case: LastXref is set to the scratch offset of the xref text
      refine ⟨fun _ => ⟨?_, ?_⟩, ?_⟩
      · simp only [List.length_append]
        push_cast
        omega
      · simp only [List.length_append]
        push_cast
        omega
      · simp only [List.length_append]
        push_cast
        omega
    · exact ih (inv_of_tame hmid (tame_scratch_append _ _))

theorem inv_maybeFindXref {p : Parser} (hp : Inv p) : Inv (maybeFindXref p).2 := by
  unfold maybeFindXref
  repeat' split
  · exact hp
  · exact hp
  · exact inv_findXrefLoopF _ hp

theorem inv_trailerLoopF : ∀ fuel {p : Parser}, Inv p → Inv (trailerLoopF fuel p).2 := by
  intro fuel
  induction fuel with
  | zero => intro p hp; exact hp
  | succ n ih =>
    intro p hp
    unfold trailerLoopF
    dsimp only
    repeat' split
    all_goals first
      | exact inv_resetToHere _
      | exact inv_set_eof _ (inv_checkToken _ _ hp)
      | exact ih (inv_checkToken _ _ hp)

theorem inv_maybeFindHeader {p : Parser} (hp : Inv p) : Inv (maybeFindHeader p).2 := by
  unfold maybeFindHeader
  dsimp only
  have happ : Inv { (nextItemP p).2 with
      Scratch := (nextItemP p).2.Scratch ++ (nextItemP p).1.val } :=
    inv_of_tame hp (tame_trans (tame_nextItemP p) (tame_scratch_append _ _))
  repeat' split
  all_goals first
    | exact inv_resetToHere _
    | exact inv_trailerLoopF _ happ
    | exact inv_set_eof _ happ
    | exact inv_checkToken _ _ (inv_checkToken _ _ (inv_checkToken _ _ happ))

theorem inv_reachable {p : Parser} (h : Reachable p) : Inv p := by
  induction h with
  | init toks => exact inv_initParser toks
  | findXref _ ih => exact inv_maybeFindXref ih
  | check t b _ ih => exact inv_checkToken t b ih
  | row _ ih => exact inv_findRow ih
  | header _ ih => exact inv_maybeFindHeader ih
  | reset _ ih => exact inv_resetToHere _
  | write row i _ ih => exact inv_rowWrite row i ih
  | term _ ih => exact inv_checkLineTerm ih

theorem rowWrite_toks (row : Row) (i : Nat) (p : Parser) :
    (rowWrite row i p).toks = p.toks := by
  unfold rowWrite
  split <;> rfl

theorem checkLineTerm_iff (p : Parser) :
    (checkLineTerm p).1 = true ↔ termShape p.toks := by
  rcases hp : p.toks with _ | ⟨t, rest⟩
  · simp [checkLineTerm, checkToken, nextItemP, hp, termShape]
  · rcases rest with _ | ⟨u, rest2⟩
    · simp only [checkLineTerm, checkToken, nextItemP, hp, termShape]
      split_ifs
      all_goals simp_all
    · simp only [checkLineTerm, checkToken, nextItemP, hp, termShape]
      split_ifs
      all_goals simp_all

end PdflexFix

namespace Pdflex

theorem chunk_err (msg : List Char) (l : Lexer) :
    ChunkOK ([errorItem msg l], none) := by
  intro i it h _
  cases i with
  | zero => rfl
  | succ n => simp [List.get?] at h

theorem chunk_single_none (it : Item) : ChunkOK ([it], none) := by
  intro i it' h _
  cases i with
  | zero => rfl
  | succ n => simp [List.get?] at h

theorem chunk_nil_cont (x : StateF × Lexer) : ChunkOK ([], some x) := by
  intro it hit
  simp at hit

theorem chunk_cont_emit (t : ItemType) (l : Lexer) (x : StateF × Lexer)
    (hEOF : t ≠ .ItemEOF) (hErr : t ≠ .ItemError) :
    ChunkOK ([(emit t l).1], some x) := by
  intro it hit
  rw [List.mem_singleton] at hit
  subst hit
  intro hterm
  rcases hterm with h | h
  · exact hEOF h
  · exact hErr h

theorem chunk_cont_pair_emit (t₁ : ItemType) (l₁ : Lexer) (t₂ : ItemType)
    (l₂ : Lexer) (x : StateF × Lexer)
    (h₁ : t₁ ≠ .ItemEOF) (h₂ : t₁ ≠ .ItemError)
    (h₃ : t₂ ≠ .ItemEOF) (h₄ : t₂ ≠ .ItemError) :
    ChunkOK ([(emit t₁ l₁).1, (emit t₂ l₂).1], some x) := by
  intro it hit
  simp only [List.mem_cons, List.mem_singleton, List.not_mem_nil, or_false] at hit
  rcases hit with rfl | rfl
  · intro hterm
    rcases hterm with h | h
    exacts [h₁ h, h₂ h]
  · intro hterm
    rcases hterm with h | h
    exacts [h₃ h, h₄ h]

theorem chunk_pair_none_emit (t : ItemType) (l : Lexer) (b : Item)
    (hEOF : t ≠ .ItemEOF) (hErr : t ≠ .ItemError) :
    ChunkOK ([(emit t l).1, b], none) := by
  intro i it h ht
  cases i with
  | zero =>
    simp only [List.get?] at h
    injection h with h
    subst h
    refine absurd ht ?_
    intro hterm
    rcases hterm with h | h
    exacts [hEOF h, hErr h]
  | succ n =>
    cases n with
    | zero => rfl
    | succ m => simp [List.get?] at h

theorem chunkOK_eofBody (l : Lexer) : ChunkOK (eofBody l) := by
  unfold eofBody
  split
  · exact chunk_err _ _
  split
  · exact chunk_err _ _
  · exact chunk_single_none _

theorem chunkOK_stringLoopF : ∀ fuel bal l, ChunkOK (stringLoopF fuel bal l) := by
  intro fuel
  induction fuel with
  | zero => intro bal l i it h _; simp [stringLoopF] at h
  | succ n ih =>
    intro bal l
    unfold stringLoopF
    repeat' split
    all_goals first
      | exact chunk_err _ _
      | exact ih _ _
      | exact chunk_cont_emit _ _ _ (by decide) (by decide)

theorem chunkOK_nameLoopF : ∀ fuel l, ChunkOK (nameLoopF fuel l) := by
  intro fuel
  induction fuel with
  | zero => intro l i it h _; simp [nameLoopF] at h
  | succ n ih =>
    intro l
    unfold nameLoopF
    repeat' split
    all_goals first
      | exact chunk_err _ _
      | exact ih _
      | exact chunk_cont_emit _ _ _ (by decide) (by decide)

theorem chunkOK_hexLoopF : ∀ fuel l, ChunkOK (hexLoopF fuel l) := by
  intro fuel
  induction fuel with
  | zero => intro l i it h _; simp [hexLoopF] at h
  | succ n ih =>
    intro l
    unfold hexLoopF
    repeat' split
    all_goals first
      | exact chunk_err _ _
      | exact ih _
      | exact chunk_cont_emit _ _ _ (by decide) (by decide)

theorem chunkOK_commentLoopF : ∀ fuel r l, ChunkOK (commentLoopF fuel r l) := by
  intro fuel
  induction fuel with
  | zero => intro r l i it h _; simp [commentLoopF] at h
  | succ n ih =>
    intro r l
    unfold commentLoopF
    repeat' split
    all_goals first
      | exact ih _ _
      | exact chunk_cont_emit _ _ _ (by decide) (by decide)

theorem chunkOK_stepSpace (l : Lexer) : ChunkOK (stepSpace l) := by
  unfold stepSpace
  exact chunk_cont_emit _ _ _ (by decide) (by decide)

theorem keytoks_not_term (w : List Char) (t : ItemType) (h : keytoks w = some t) :
    t ≠ .ItemEOF ∧ t ≠ .ItemError := by
  unfold keytoks at h
  repeat' split at h
  all_goals first
    | exact Option.noConfusion h
    | (injection h with h2; subst h2; exact ⟨by decide, by decide⟩)

theorem chunkOK_stepWord (l : Lexer) : ChunkOK (stepWord l) := by
  unfold stepWord
  dsimp only
  split
  case _ tok htok =>
    have h := keytoks_not_term _ _ htok
    split
    · exact chunk_cont_emit _ _ _ h.1 h.2
    · exact chunk_cont_emit _ _ _ h.1 h.2
  case _ =>
    exact chunk_cont_emit _ _ _ (by decide) (by decide)

theorem chunkOK_stepNumber (l : Lexer) : ChunkOK (stepNumber l) := by
  unfold stepNumber
  repeat' split
  all_goals first
    | exact chunk_err _ _
    | exact chunk_cont_emit _ _ _ (by decide) (by decide)

theorem chunkOK_stepStream (l : Lexer) : ChunkOK (stepStream l) := by
  unfold stepStream
  dsimp only
  repeat' split
  all_goals first
    | exact chunk_err _ _
    | exact chunk_pair_none_emit _ _ _ (by decide) (by decide)
    | exact chunk_cont_pair_emit _ _ _ _ _ (by decide) (by decide) (by decide) (by decide)

theorem chunkOK_stepLeftDict (l : Lexer) : ChunkOK (stepLeftDict l) := by
  unfold stepLeftDict
  exact chunk_cont_emit _ _ _ (by decide) (by decide)

theorem chunkOK_stepRightDict (l : Lexer) : ChunkOK (stepRightDict l) := by
  unfold stepRightDict
  exact chunk_cont_emit _ _ _ (by decide) (by decide)

theorem chunkOK_stepDefaultChar (c : Char) (l : Lexer) :
    ChunkOK (stepDefaultChar c l) := by
  unfold stepDefaultChar
  by_cases h1 : c = '\r'
  · rw [if_pos h1]; exact chunk_cont_emit _ _ _ (by decide) (by decide)
  rw [if_neg h1]
  by_cases h2 : c = '\n'
  · rw [if_pos h2]; exact chunk_cont_emit _ _ _ (by decide) (by decide)
  rw [if_neg h2]
  by_cases h3 : unicodeIsSpace c = true
  · rw [if_pos h3]; exact chunk_nil_cont _
  rw [if_neg h3]
  by_cases h4 : c = '/'
  · rw [if_pos h4]; exact chunk_nil_cont _
  rw [if_neg h4]
  by_cases h5 : (c = '+' || c = '-' || c = '.' || ('0' ≤ c && c ≤ '9')) = true
  · rw [if_pos h5]; exact chunk_nil_cont _
  rw [if_neg h5]
  by_cases h6 : isAlphaNumeric c = true
  · rw [if_pos h6]; exact chunk_nil_cont _
  rw [if_neg h6]
  by_cases h7 : c = '('
  · rw [if_pos h7]; exact chunk_nil_cont _
  rw [if_neg h7]
  by_cases h8 : c = '<'
  · rw [if_pos h8]
    by_cases h8a : (peekL l).1 = some '<'
    · rw [if_pos h8a]; exact chunk_nil_cont _
    · rw [if_neg h8a]; exact chunk_nil_cont _
  rw [if_neg h8]
  by_cases h9 : c = '['
  · rw [if_pos h9]; exact chunk_cont_emit _ _ _ (by decide) (by decide)
  rw [if_neg h9]
  by_cases h10 : c = ']'
  · rw [if_pos h10]
    by_cases h10a : ({ l with arrayDepth := l.arrayDepth - 1 } : Lexer).arrayDepth < 0
    · rw [if_pos h10a]; exact chunk_err _ _
    · rw [if_neg h10a]; exact chunk_cont_emit _ _ _ (by decide) (by decide)
  rw [if_neg h10]
  by_cases h11 : c = '%'
  · rw [if_pos h11]; exact chunk_nil_cont _
  rw [if_neg h11]
  by_cases h12 : c = '>'
  · rw [if_pos h12]
    by_cases h12a : (peekL l).1 = some '>'
    · rw [if_pos h12a]
      by_cases h12b :
          ({ (peekL l).2 with dictDepth := (peekL l).2.dictDepth - 1 } : Lexer).dictDepth < 0
      · rw [if_pos h12b]; exact chunk_err _ _
      · rw [if_neg h12b]; exact chunk_nil_cont _
    · rw [if_neg h12a]; exact chunkOK_eofBody _
  rw [if_neg h12]
  exact chunk_err _ _

theorem chunkOK_stepDefault (l : Lexer) : ChunkOK (stepDefault l) := by
  unfold stepDefault
  split
  · exact chunkOK_eofBody _
  · exact chunkOK_stepDefaultChar _ _

theorem chunkOK_stepState (s : StateF) (l : Lexer) : ChunkOK (stepState s l) := by
  cases s with
  | default => exact chunkOK_stepDefault l
  | spaceS => exact chunkOK_stepSpace l
  | nameS => exact chunkOK_nameLoopF _ _
  | numberS => exact chunkOK_stepNumber l
  | wordS => exact chunkOK_stepWord l
  | stringS => exact chunkOK_stringLoopF _ _ _
  | hexS => exact chunkOK_hexLoopF _ _
  | commentS => exact chunkOK_commentLoopF _ _ _
  | leftDictS => exact chunkOK_stepLeftDict l
  | rightDictS => exact chunkOK_stepRightDict l
  | streamS => exact chunkOK_stepStream l

/-- In any run of the state machine, a terminal (EOF or Error) item occurs
only as the very last item of the stream. -/
theorem runState_term_last :
    ∀ fuel s l i it, (runState fuel s l).get? i = some it → isTermItem it →
      i + 1 = (runState fuel s l).length := by
  intro fuel
  induction fuel with
  | zero => intro s l i it h _; simp [runState] at h
  | succ n ih =>
    intro s l i it
    have hc := chunkOK_stepState s l
    rcases hstep : stepState s l with ⟨items, next⟩
    rw [hstep] at hc
    cases next with
    | none =>
      simp only [runState, hstep]
      intro h ht
      exact hc i it h ht
    | some x =>
      rcases x with ⟨s', l'⟩
      simp only [runState, hstep]
      intro h ht
      by_cases hi : i < items.length
      · rw [List.get?_append hi] at h
        exact absurd ht (hc it (List.get?_mem h))
      · push_neg at hi
        rw [List.get?_append_right hi] at h
        have hr := ih s' l' (i - items.length) it h ht
        rw [List.length_append]
        omega

end Pdflex

namespace PdflexClaims

open Pdflex PdflexFix

/-- C4 (amended): once an EOF or Error item has been returned by
`NextItem`, no subsequent call ever produces another item — the stream
ends there (the Go receive blocks forever), rather than returning further
EOF items. -/
theorem c4_no_items_after_terminal (input : List Char) (i : Nat) (it : Item)
    (h : nextItemAt input i = some it)
    (ht : it.typ = .ItemEOF ∨ it.typ = .ItemError) :
    ∀ j, i < j → nextItemAt input j = none := by
  intro j hj
  have hlast := runState_term_last (2 * input.length + 4) .default (initLexer input) i it h ht
  unfold nextItemAt lexAll at *
  apply List.get?_eq_none.2
  omega

/-- Witness for C4: on the empty input the first item is the terminal EOF
item and the second call yields nothing. -/
theorem c4_no_items_after_terminal_witness :
    nextItemAt [] 0 = some ⟨.ItemEOF, 0, []⟩ ∧ nextItemAt [] 1 = none :=
  ⟨by decide,
   c4_no_items_after_terminal [] 0 ⟨.ItemEOF, 0, []⟩ (by decide) (Or.inl rfl) 1
     (by decide)⟩

end PdflexClaims

namespace PdflexClaims

open Pdflex PdflexFix

/-- C8: for every lexer stream and every parser state reachable from a
fresh parser through the fixup operations, while the state is Inside the
parser satisfies `0 ≤ LastXref` and `From ≤ LastXref`; and ResetToHere
always sets `LastXref`, `Idx`, `Offset` and `Entries` to the sentinel -1. -/
theorem c8_inside_invariant_and_reset (p : Parser) (h : Reachable p) :
    (p.State = .inside → 0 ≤ p.LastXref ∧ p.From ≤ p.LastXref) ∧
    ∀ q : Parser, (resetToHere q).LastXref = -1 ∧ (resetToHere q).Idx = -1 ∧
      (resetToHere q).Offset = -1 ∧ (resetToHere q).Entries = -1 := by
  refine ⟨(inv_reachable h).1, ?_⟩
  intro q
  unfold resetToHere
  exact ⟨rfl, rfl, rfl, rfl⟩

/-- Witness for C8: the freshly constructed parser is reachable. -/
theorem c8_inside_invariant_and_reset_witness :
    ((initParser []).State = .inside → 0 ≤ (initParser []).LastXref ∧
      (initParser []).From ≤ (initParser []).LastXref) ∧
    ∀ q : Parser, (resetToHere q).LastXref = -1 ∧ (resetToHere q).Idx = -1 ∧
      (resetToHere q).Offset = -1 ∧ (resetToHere q).Entries = -1 :=
  c8_inside_invariant_and_reset (initParser []) (Reachable.init [])

/-- C9: after a successfully parsed xref row, the fixup loop accepts the
line terminator iff the upcoming tokens are a single CRLF EOL token
(length 2) or a one-byte Space token followed by a one-byte EOL token;
on every other shape it bails to the main loop through ResetToHere,
which plants the -1 sentinels. -/
theorem c9_row_line_terminator (q p₀ : Parser) (row : Row) (i k fuel : Nat)
    (hrow : findRow q = (some row, p₀)) :
    ((checkLineTerm (rowWrite row i p₀)).1 = true ↔ termShape p₀.toks) ∧
    fixLoop (fuel+1) (.entries i (k+1)) q =
      (if (checkLineTerm (rowWrite row i p₀)).1 then
        fixLoop fuel (.entries (i+1) k) (checkLineTerm (rowWrite row i p₀)).2
      else fixLoop fuel .main (resetToHere (checkLineTerm (rowWrite row i p₀)).2)) ∧
    (resetToHere (checkLineTerm (rowWrite row i p₀)).2).LastXref = -1 ∧
    (resetToHere (checkLineTerm (rowWrite row i p₀)).2).Idx = -1 ∧
    (resetToHere (checkLineTerm (rowWrite row i p₀)).2).Offset = -1 ∧
    (resetToHere (checkLineTerm (rowWrite row i p₀)).2).Entries = -1 := by
  refine ⟨?_, ?_, ?_, ?_, ?_, ?_⟩
  · rw [← rowWrite_toks row i p₀]
    exact checkLineTerm_iff (rowWrite row i p₀)
  · simp only [fixLoop, hrow]
  · unfold resetToHere; rfl
  · unfold resetToHere; rfl
  · unfold resetToHere; rfl
  · unfold resetToHere; rfl

/-- Witness for C9: the row parses, the terminator shape is illegal, and
the loop takes the reset path. -/
theorem c9_row_line_terminator_witness :
    (¬ termShape (findRow qC9).2.toks) ∧
    fixLoop 1 (.entries 0 1) qC9 =
      (if (checkLineTerm (rowWrite rowC9 0 (findRow qC9).2)).1 then
        fixLoop 0 (.entries 1 0) (checkLineTerm (rowWrite rowC9 0 (findRow qC9).2)).2
      else fixLoop 0 .main (resetToHere (checkLineTerm (rowWrite rowC9 0 (findRow qC9).2)).2)) :=
  ⟨by decide,
   (c9_row_line_terminator qC9 (findRow qC9).2 rowC9 0 0 0 (by decide)).2.1⟩

end PdflexClaims

namespace PdflexFix

open Pdflex

theorem concatVals_cons (t : Item) (rest : List Item) :
    concatVals (t :: rest) = t.val ++ concatVals rest := by
  simp [concatVals]

/-- Consuming a chunk of the input: if the unread input starts with `v`,
appending `v` to the read prefix extends it by `v.length` bytes. -/
theorem chunk_take (eye v w : List Char) (pos : Nat) (hpos : pos ≤ eye.length)
    (h : eye.drop pos = v ++ w) :
    eye.take pos ++ v = eye.take (pos + v.length) ∧
    eye.drop (pos + v.length) = w ∧ pos + v.length ≤ eye.length := by
  refine ⟨?_, ?_, ?_⟩
  · rw [List.take_add, h, List.take_left]
  · have hd : (eye.drop pos).drop v.length = eye.drop (pos + v.length) := by
      rw [List.drop_drop, Nat.add_comm]
    rw [← hd, h, List.drop_left]

  · have hl := congrArg List.length h
    simp [List.length_drop] at hl
    omega

end PdflexFix

namespace PdflexFix

open Pdflex

/-- Evaluation of `findRow` on a stream beginning with a canonical row. -/
theorem findRow_eval (p : Parser) (t1 t2 t3 t4 t5 : Item) (rest : List Item)
    (o g : Int) (htoks : p.toks = t1 :: t2 :: t3 :: t4 :: t5 :: rest)
    (h1 : t1.typ = .ItemNumber) (h1l : t1.val.length = 10) (h1a : atoi t1.val = some o)
    (h2 : t2.typ = .ItemSpace) (h2l : t2.val.length = 1)
    (h3 : t3.typ = .ItemNumber) (h3l : t3.val.length = 5) (h3a : atoi t3.val = some g)
    (h4 : t4.typ = .ItemSpace) (h4l : t4.val.length = 1)
    (h5 : t5.typ = .ItemWord) (h5v : t5.val = "n".data ∨ t5.val = "f".data) :
    findRow p = (some ⟨o, g, decide (t5.val = "n".data)⟩, { p with toks := rest }) := by
  unfold findRow checkToken nextItemP
  rw [htoks]
  rcases h5v with h5v | h5v <;>
    simp [h1, h1l, h1a, h2, h2l, h3, h3l, h3a, h4, h4l, h5, h5v]

end PdflexFix

namespace PdflexFix

open Pdflex

theorem checkLineTerm_eval_crlf (p : Parser) (u : Item) (rest : List Item)
    (htoks : p.toks = u :: rest) (hu : u.typ = .ItemEOL) (hul : u.val.length = 2) :
    checkLineTerm p = (true, { p with toks := rest, Scratch := p.Scratch ++ u.val }) := by
  unfold checkLineTerm checkToken nextItemP
  rw [htoks]
  simp [hu, hul]

theorem checkLineTerm_eval_spc (p : Parser) (u v : Item) (rest : List Item)
    (htoks : p.toks = u :: v :: rest)
    (hu : u.typ = .ItemSpace) (hul : u.val.length = 1)
    (hv : v.typ = .ItemEOL) (hvl : v.val.length = 1) :
    checkLineTerm p =
      (true, { p with toks := rest, Scratch := p.Scratch ++ u.val ++ v.val }) := by
  unfold checkLineTerm checkToken nextItemP
  rw [htoks]
  simp [hu, hul, hv, hvl]

theorem maybeFindHeader_eval_header (p : Parser) (t s n2 e : Item) (rest : List Item)
    (off ent : Int)
    (hstate : p.State = .inside)
    (htoks : p.toks = t :: s :: n2 :: e :: rest)
    (ht : t.typ = .ItemNumber) (hta : atoi t.val = some off)
    (hs : s.typ = .ItemSpace) (hn : n2.typ = .ItemNumber) (hna : atoi n2.val = some ent)
    (he : e.typ = .ItemEOL) :
    maybeFindHeader p = (true, { p with
      toks := rest,
      Scratch := p.Scratch ++ t.val ++ s.val ++ n2.val ++ e.val,
      Offset := off, Entries := ent, Idx := off }) := by
  unfold maybeFindHeader checkToken nextItemP
  rw [htoks]
  simp [hstate, ht, hta, hs, hn, hna, he]

theorem maybeFindHeader_eval_trailer (p : Parser) (t : Item) (rest : List Item)
    (hstate : p.State = .inside)
    (htoks : p.toks = t :: rest) (ht : t.typ = .ItemTrailer) :
    maybeFindHeader p =
      trailerLoopF (rest.length + 1)
        { p with toks := rest, Scratch := p.Scratch ++ t.val } := by
  unfold maybeFindHeader nextItemP
  rw [htoks]
  simp [hstate, ht]

theorem trailerLoopF_eval_junk (f : Nat) (p : Parser) (t : Item) (rest : List Item)
    (htoks : p.toks = t :: rest)
    (ht1 : t.typ ≠ .ItemEOF) (ht2 : t.typ ≠ .ItemStartXref) :
    trailerLoopF (f+1) p =
      trailerLoopF f { p with toks := rest, Scratch := p.Scratch ++ t.val } := by
  conv_lhs => unfold trailerLoopF
  unfold checkToken nextItemP
  rw [htoks]
  simp [ht1, ht2]

theorem trailerLoopF_eval_startxref (f : Nat) (p : Parser) (t e num : Item)
    (rest2 : List Item)
    (htoks : p.toks = t :: e :: num :: rest2)
    (ht : t.typ = .ItemStartXref) (he : e.typ = .ItemEOL) (hn : num.typ = .ItemNumber) :
    trailerLoopF (f+1) p =
      (false, resetToHere { p with
        toks := rest2
        Scratch := p.Scratch ++ t.val ++ e.val ++ intToDec p.LastXref }) := by
  unfold trailerLoopF checkToken nextItemP
  rw [htoks]
  simp [ht, he, hn]

theorem findXrefLoopF_eval_eof (f : Nat) (p : Parser) (t : Item) (rest : List Item)
    (htoks : p.toks = t :: rest) (ht : t.typ = .ItemEOF) :
    findXrefLoopF (f+1) p = (false, { p with toks := rest, State := .eofS }) := by
  unfold findXrefLoopF nextItemP
  rw [htoks]
  simp [ht]

theorem findXrefLoopF_eval_xref (f : Nat) (p : Parser) (t : Item) (rest : List Item)
    (htoks : p.toks = t :: rest) (ht : t.typ = .ItemXref) :
    findXrefLoopF (f+1) p = (true, { p with
      toks := rest
      Scratch := p.Scratch ++ t.val
      State := .inside
      LastXref := (p.Scratch.length : Int) }) := by
  unfold findXrefLoopF nextItemP
  rw [htoks]
  simp [ht, Parser.mk.injEq]

theorem findXrefLoopF_eval_junk (f : Nat) (p : Parser) (t : Item) (rest : List Item)
    (htoks : p.toks = t :: rest) (ht1 : t.typ ≠ .ItemEOF) (ht2 : t.typ ≠ .ItemXref) :
    findXrefLoopF (f+1) p =
      findXrefLoopF f { p with toks := rest, Scratch := p.Scratch ++ t.val } := by
  conv_lhs => unfold findXrefLoopF
  unfold nextItemP
  rw [htoks]
  simp [ht1, ht2]

end PdflexFix

namespace PdflexFix

open Pdflex

/-- Scanning for an xref section: on a recognised stream, `findXrefLoopF`
either reaches the clean end of file (everything already copied) or stops
right after an `xref` keyword with the parser fields the recogniser
predicted. -/
theorem wf_outside_scan (eye : List Char) :
    ∀ wfuel (p : Parser) (pos : Nat) (from_ : Int) (lx : Nat) (ix : Int) xfuel,
    wfLoop wfuel .outside eye pos from_ lx ix p.toks = true →
    p.Scratch = eye.take pos →
    concatVals p.toks = eye.drop pos →
    pos ≤ eye.length →
    p.From = from_ →
    p.toks.length < xfuel →
    (∃ q, findXrefLoopF xfuel p = (false, q) ∧ q.Scratch = eye ∧ q.State = .eofS) ∨
    (∃ q e rest2 posX w', findXrefLoopF xfuel p = (true, q) ∧
      q.toks = e :: rest2 ∧ e.typ = .ItemEOL ∧
      q.Scratch = eye.take (posX + 4) ∧ q.State = .inside ∧
      q.LastXref = (posX : Int) ∧ q.From = from_ ∧ q.Idx = p.Idx ∧
      concatVals q.toks = eye.drop (posX + 4) ∧
      posX + 4 ≤ eye.length ∧
      w' < wfuel ∧
      wfLoop w' (.rows 0 0) eye (posX + 4 + e.val.length) from_ posX 0 rest2 = true ∧
      q.toks.length < p.toks.length) := by
  intro wfuel
  induction wfuel with
  | zero =>
    intro p pos from_ lx ix xfuel hwf
    simp [wfLoop] at hwf
  | succ w ih =>
    intro p pos from_ lx ix xfuel hwf hscr hcat hpos hfrom hx
    rcases htoks : p.toks with _ | ⟨t, rest⟩
    · rw [htoks] at hwf
      simp [wfLoop] at hwf
    rcases xfuel with _ | x
    · omega
    rw [htoks] at hwf
    simp only [wfLoop] at hwf
    rw [htoks] at hcat
    rw [concatVals_cons] at hcat
    by_cases hEOF : t.typ = .ItemEOF
    · rw [if_pos hEOF] at hwf
      simp only [Bool.and_eq_true, decide_eq_true_eq] at hwf
      obtain ⟨hval, hrest⟩ := hwf
      left
      refine ⟨_, findXrefLoopF_eval_eof x p t rest htoks hEOF, ?_, rfl⟩
      have hdrop : eye.drop pos = [] := by
        rw [← hcat, hval, hrest]
        simp [concatVals]
      have : eye.length ≤ pos := by
        have := congrArg List.length hdrop
        simp [List.length_drop] at this
        omega
      have hpe : pos = eye.length := le_antisymm hpos this
      simp only []
      rw [hscr, hpe, List.take_length]
    · rw [if_neg hEOF] at hwf
      by_cases hX : t.typ = .ItemXref
      · rw [if_pos hX] at hwf
        rcases hrest : rest with _ | ⟨e, rest2⟩
        · rw [hrest] at hwf
          simp at hwf
        rw [hrest] at hwf
        simp only [Bool.and_eq_true, decide_eq_true_eq] at hwf
        obtain ⟨hval, he, hwf2⟩ := hwf
        right
        have hlen4 : t.val.length = 4 := by rw [hval]; rfl
        have hchunk := chunk_take eye t.val (concatVals rest) pos hpos hcat.symm
        refine ⟨_, e, rest2, pos, w,
          findXrefLoopF_eval_xref x p t rest htoks hX, ?_, he, ?_, rfl, ?_, ?_, ?_,
          ?_, ?_, ?_, ?_, ?_⟩
        · simp [hrest]
        · simp only []
          rw [hscr, hchunk.1, hlen4]
        · simp only []
          rw [hscr]
          have : pos ≤ eye.length := hpos
          simp [List.length_take]
          omega
        · simp only []
          exact hfrom
        · simp only []
        · simp only [hrest]
          rw [← hlen4, ← hrest]
          exact hchunk.2.1.symm
        · rw [← hlen4]
          exact hchunk.2.2
        · omega
        · exact hwf2
        · rw [hrest]
          simp
      · rw [if_neg hX] at hwf
        have hchunk := chunk_take eye t.val (concatVals rest) pos hpos hcat.symm
        have heval := findXrefLoopF_eval_junk x p t rest htoks hEOF hX
        have hih := ih { p with toks := rest, Scratch := p.Scratch ++ t.val }
          (pos + t.val.length) from_ lx ix x ?_ ?_ ?_ ?_ ?_ ?_
        · rw [heval]
          rcases hih with ⟨q, hq, h1, h2⟩ |
            ⟨q, e, rest2, posX, w', hq, k1, k2, k3, k4, k5, k6, k7, k8, k9, k10, k11, k12⟩
          · exact Or.inl ⟨q, hq, h1, h2⟩
          · right
            refine ⟨q, e, rest2, posX, w', hq, k1, k2, k3, k4, k5, k6, k7,
              k8, k9, ?_, k11, ?_⟩
            · omega
            · have hk : q.toks.length < rest.length := by simpa using k12
              simp only [List.length_cons]
              omega
        · exact hwf
        · simp only []
          rw [hscr]
          exact hchunk.1
        · exact hchunk.2.1.symm
        · exact hchunk.2.2
        · exact hfrom
        · simp only []
          have : p.toks.length = rest.length + 1 := by rw [htoks]; simp
          omega

end PdflexFix

namespace PdflexFix

open Pdflex

theorem resetToHere_Scratch (p : Parser) : (resetToHere p).Scratch = p.Scratch := by
  unfold resetToHere
  split <;> rfl

theorem resetToHere_toks (p : Parser) : (resetToHere p).toks = p.toks := by
  unfold resetToHere
  split <;> rfl

theorem resetToHere_From (p : Parser) :
    (resetToHere p).From = (p.Scratch.length : Int) - 1 := by
  unfold resetToHere
  split <;> rfl

theorem resetToHere_State_ne (p : Parser) (h : p.State ≠ .eofS) :
    (resetToHere p).State = .outside := by
  unfold resetToHere
  split
  · rfl
  · simp_all

/-- Scanning the trailer for `startxref`: on a recognised stream the loop
reaches `startxref`, copies everything verbatim except the lexed number —
replaced by the decimal rendering of `LastXref`, equal to it by
well-formedness — and resets. -/
theorem wf_trailer_scan (eye : List Char) :
    ∀ wfuel (p : Parser) (pos : Nat) (from_ : Int) (lastXref : Nat) tfuel,
    wfLoop wfuel .trailer eye pos from_ lastXref 0 p.toks = true →
    p.Scratch = eye.take pos →
    concatVals p.toks = eye.drop pos →
    pos ≤ eye.length →
    p.LastXref = (lastXref : Int) →
    p.State = .inside →
    p.toks.length < tfuel →
    ∃ q pos' w', trailerLoopF tfuel p = (false, q) ∧
      q.Scratch = eye.take pos' ∧
      concatVals q.toks = eye.drop pos' ∧
      pos' ≤ eye.length ∧
      q.State = .outside ∧
      q.From = (pos' : Int) - 1 ∧
      w' < wfuel ∧
      wfLoop w' .outside eye pos' ((pos' : Int) - 1) 0 0 q.toks = true ∧
      q.toks.length < p.toks.length := by
  intro wfuel
  induction wfuel with
  | zero =>
    intro p pos from_ lastXref tfuel hwf
    simp [wfLoop] at hwf
  | succ w ih =>
    intro p pos from_ lastXref tfuel hwf hscr hcat hpos hlx hstate ht
    rcases htoks : p.toks with _ | ⟨t, rest⟩
    · rw [htoks] at hwf
      simp [wfLoop] at hwf
    rcases tfuel with _ | tf
    · omega
    rw [htoks] at hwf
    simp only [wfLoop] at hwf
    rw [htoks] at hcat
    rw [concatVals_cons] at hcat
    by_cases hEOF : t.typ = .ItemEOF
    · rw [if_pos hEOF] at hwf
      simp at hwf
    rw [if_neg hEOF] at hwf
    by_cases hSX : t.typ = .ItemStartXref
    · rw [if_pos hSX] at hwf
      rcases hrest : rest with _ | ⟨e, rest1⟩
      · rw [hrest] at hwf
        simp at hwf
      rcases hrest2 : rest1 with _ | ⟨num, rest2⟩
      · rw [hrest, hrest2] at hwf
        simp at hwf
      rw [hrest, hrest2] at hwf
      simp only [Bool.and_eq_true, decide_eq_true_eq] at hwf
      obtain ⟨⟨⟨he, hn⟩, hv⟩, hwf2⟩ := hwf
      rw [hrest, hrest2] at htoks hcat
      have heval := trailerLoopF_eval_startxref tf p t e num rest2 htoks hSX he hn
      have hc1 := chunk_take eye t.val (concatVals (e :: num :: rest2)) pos hpos hcat.symm
      have hcat2 := hc1.2.1
      rw [concatVals_cons] at hcat2
      have hc2 := chunk_take eye e.val (concatVals (num :: rest2))
        (pos + t.val.length) hc1.2.2 hcat2
      have hcat3 := hc2.2.1
      rw [concatVals_cons] at hcat3
      have hc3 := chunk_take eye num.val (concatVals rest2)
        (pos + t.val.length + e.val.length) hc2.2.2 hcat3
      have hnumval : intToDec p.LastXref = num.val := by
        rw [hlx, hv]
      have hscr' : p.Scratch ++ t.val ++ e.val ++ intToDec p.LastXref =
          eye.take (pos + t.val.length + e.val.length + num.val.length) := by
        rw [hnumval, hscr]
        rw [show eye.take pos ++ t.val ++ e.val ++ num.val =
          ((eye.take pos ++ t.val) ++ e.val) ++ num.val from by simp]
        rw [hc1.1, hc2.1, hc3.1]
      refine ⟨_, pos + t.val.length + e.val.length + num.val.length, w, heval,
        ?_, ?_, ?_, ?_, ?_, ?_, ?_, ?_⟩
      · rw [resetToHere_Scratch]
        simp only []
        exact hscr'
      · rw [resetToHere_toks]
        simp only []
        exact hc3.2.1.symm
      · exact hc3.2.2
      · apply resetToHere_State_ne
        simp only []
        rw [hstate]
        intro hcon
        cases hcon
      · rw [resetToHere_From]
        simp only []
        rw [hscr']
        have hlen : (eye.take (pos + t.val.length + e.val.length + num.val.length)).length
            = pos + t.val.length + e.val.length + num.val.length := by
          simp [List.length_take]
          omega
        rw [hlen]
      · omega
      · rw [resetToHere_toks]
        simp only []
        have hcast : ((pos + t.val.length + e.val.length + num.val.length : Nat) : Int) - 1
            = ((pos : Int) + t.val.length + e.val.length + num.val.length - 1) := by
          push_cast
          ring
        rw [hcast]
        exact hwf2
      · rw [resetToHere_toks]
        simp only [List.length_cons]
        omega
    · rw [if_neg hSX] at hwf
      have hchunk := chunk_take eye t.val (concatVals rest) pos hpos hcat.symm
      have heval := trailerLoopF_eval_junk tf p t rest htoks hEOF hSX
      have hh1 : ({ p with toks := rest
                           Scratch := p.Scratch ++ t.val } : Parser).Scratch
          = eye.take (pos + t.val.length) := by
        simp only []
        rw [hscr]
        exact hchunk.1
      have hh2 : concatVals ({ p with toks := rest
                                      Scratch := p.Scratch ++ t.val } : Parser).toks
          = eye.drop (pos + t.val.length) := hchunk.2.1.symm
      have hh3 : pos + t.val.length ≤ eye.length := hchunk.2.2
      have hh4 : ({ p with toks := rest
                           Scratch := p.Scratch ++ t.val } : Parser).LastXref
          = (lastXref : Int) := hlx
      have hh5 : ({ p with toks := rest
                           Scratch := p.Scratch ++ t.val } : Parser).State = .inside := hstate
      have hh6 : ({ p with toks := rest
                           Scratch := p.Scratch ++ t.val } : Parser).toks.length < tf := by
        simp only []
        have : p.toks.length = rest.length + 1 := by rw [htoks]; simp
        omega
      obtain ⟨q, pos', w', hq, j1, j2, j3, j4, j5, j6, j7, j8⟩ := ih
        { p with toks := rest
                 Scratch := p.Scratch ++ t.val }
        (pos + t.val.length) from_ lastXref tf hwf hh1 hh2 hh3 hh4 hh5 hh6
      refine ⟨q, pos', w', ?_, j1, j2, j3, j4, j5, ?_, j7, ?_⟩
      · rw [heval]
        exact hq
      · omega
      · have hk : q.toks.length < rest.length := by simpa using j8
        simp only [List.length_cons]
        omega

end PdflexFix

namespace PdflexFix

open Pdflex

theorem fixLoop_main_step (f : Nat) (p : Parser) :
    fixLoop (f+1) .main p =
      (if !(maybeFindXref p).1 then (maybeFindXref p).2
       else if !(checkToken .ItemEOL true (maybeFindXref p).2).2.1 then
         fixLoop f .main (resetToHere (checkToken .ItemEOL true (maybeFindXref p).2).2.2)
       else fixLoop f (.entries 0 0) (checkToken .ItemEOL true (maybeFindXref p).2).2.2) :=
  rfl

theorem fixLoop_header_step (f : Nat) (i : Nat) (p : Parser) :
    fixLoop (f+1) (.entries i 0) p =
      (if !(maybeFindHeader p).1 then fixLoop f .main (resetToHere (maybeFindHeader p).2)
       else fixLoop f (.entries 0 (maybeFindHeader p).2.Entries.toNat) (maybeFindHeader p).2) :=
  rfl

theorem fixLoop_row_step (f i k : Nat) (p : Parser) :
    fixLoop (f+1) (.entries i (k+1)) p =
      (match (findRow p).1 with
       | none => fixLoop f .main (resetToHere (findRow p).2)
       | some row =>
         if (checkLineTerm (rowWrite row i (findRow p).2)).1 then
           fixLoop f (.entries (i+1) k) (checkLineTerm (rowWrite row i (findRow p).2)).2
         else fixLoop f .main (resetToHere (checkLineTerm (rowWrite row i (findRow p).2)).2)) :=
  rfl

theorem checkToken_eval_match (t : ItemType) (p : Parser) (u : Item) (rest : List Item)
    (htoks : p.toks = u :: rest) (hu : u.typ = t) (hune : u.typ ≠ .ItemEOF) :
    checkToken t true p = (u, true, { p with toks := rest, Scratch := p.Scratch ++ u.val }) := by
  unfold checkToken nextItemP
  rw [htoks]
  rw [hu] at hune
  simp [hu, hune]

theorem maybeFindXref_outside (p : Parser) (hstate : p.State = .outside) :
    maybeFindXref p = findXrefLoopF (p.toks.length + 1) p := by
  unfold maybeFindXref
  rw [hstate]
  simp

theorem rowWrite_inactive (row : Row) (i : Nat) (p : Parser) (h : row.Active = false) :
    rowWrite row i p = { p with Scratch := p.Scratch ++
      (intToDecPad 10 row.Offset ++ [' '] ++ intToDecPad 5 row.Generation ++ " f".data) } := by
  simp [rowWrite, h]

theorem rowWrite_active (row : Row) (i : Nat) (p : Parser) (off : Int) (h : row.Active = true)
    (hoff : (if locateObj ((p.Scratch.take p.LastXref.toNat).drop p.From.toNat) (p.Idx + i) < 0
             then row.Offset
             else locateObj ((p.Scratch.take p.LastXref.toNat).drop p.From.toNat) (p.Idx + i)
                    + p.From) = off) :
    rowWrite row i p = { p with Scratch := p.Scratch ++
      (intToDecPad 10 off ++ [' '] ++ intToDecPad 5 row.Generation ++ " n".data) } := by
  rw [← hoff]
  simp [rowWrite, h]

end PdflexFix

namespace PdflexFix

open Pdflex

/-- The heart of C6: on a stream recognised as healthy, the fixup loop
copies the input verbatim. Statement 1 covers the `mainLoop` control point
(recogniser phase `outside`), statement 2 the inner header/entry loop
(recogniser phase `rows i n`, fixup phase `entries i n`). -/
theorem wfLoop_fixLoop_eye (eye : List Char) : ∀ wfuel,
    (∀ (p : Parser) (pos : Nat) (from_ : Int) (ffuel : Nat),
      wfLoop wfuel .outside eye pos from_ 0 0 p.toks = true →
      p.Scratch = eye.take pos →
      concatVals p.toks = eye.drop pos →
      pos ≤ eye.length →
      p.From = from_ →
      p.State = .outside →
      p.toks.length < ffuel →
      (fixLoop ffuel .main p).Scratch = eye) ∧
    (∀ (p : Parser) (pos : Nat) (from_ : Int) (lastXref : Nat) (idx : Int) (i n : Nat)
        (ffuel : Nat),
      wfLoop wfuel (.rows i n) eye pos from_ lastXref idx p.toks = true →
      p.Scratch = eye.take pos →
      concatVals p.toks = eye.drop pos →
      pos ≤ eye.length →
      p.From = from_ →
      p.State = .inside →
      p.LastXref = (lastXref : Int) →
      (0 < n → p.Idx = idx) →
      lastXref ≤ pos →
      p.toks.length < ffuel →
      (fixLoop ffuel (.entries i n) p).Scratch = eye) := by
  intro wfuel
  induction wfuel using Nat.strong_induction_on with
  | _ wfuel ih =>
    constructor
    · -- phase main / recogniser outside
      intro p pos from_ ffuel hwf hscr hcat hpos hfrom hstate hf
      rcases ffuel with _ | f
      · omega
      rw [fixLoop_main_step]
      rw [maybeFindXref_outside p hstate]
      rcases wf_outside_scan eye wfuel p pos from_ 0 0 (p.toks.length + 1) hwf hscr hcat
          hpos hfrom (Nat.lt_succ_self _) with
        ⟨q, hq, hqscr, hqstate⟩ |
        ⟨q, e, rest2, posX, w', hq, k1, k2, k3, k4, k5, k6, k7, k8, k9, k10, k11, k12⟩
      · rw [hq]
        simp only [Bool.not_false, if_true]
        exact hqscr
      · rw [hq]
        simp only [Bool.not_true, Bool.false_eq_true, if_false]
        have hct := checkToken_eval_match .ItemEOL q e rest2 k1 k2 (by rw [k2]; decide)
        rw [hct]
        simp only [Bool.not_true, Bool.false_eq_true, if_false]
        have hdropq : eye.drop (posX + 4) = e.val ++ concatVals rest2 := by
          rw [k1, concatVals_cons] at k8
          exact k8.symm
        have hchunk := chunk_take eye e.val (concatVals rest2) (posX + 4) k9 hdropq
        refine (ih w' k10).2 _ (posX + 4 + e.val.length) from_ posX 0 0 0 f k11
          ?_ ?_ ?_ ?_ ?_ ?_ ?_ ?_ ?_
        · simp only []
          rw [k3]
          exact hchunk.1
        · simp only []
          exact hchunk.2.1.symm
        · exact hchunk.2.2
        · simp only []
          exact k6
        · simp only []
          exact k4
        · simp only []
          exact k5
        · intro hcon
          exact absurd hcon (lt_irrefl 0)
        · omega
        · simp only []
          rw [k1] at k12
          simp only [List.length_cons] at k12
          omega
    · -- phase entries / recogniser rows
      intro p pos from_ lastXref idx i n ffuel hwf hscr hcat hpos hfrom hstate hlx hidx hle hf
      rcases wfuel with _ | w
      · simp [wfLoop] at hwf
      rcases n with _ | k
      · -- header / trailer position
        rcases htoks : p.toks with _ | ⟨t, rest⟩
        · rw [htoks] at hwf
          simp [wfLoop] at hwf
        rcases ffuel with _ | f
        · omega
        rw [htoks] at hwf
        simp only [wfLoop] at hwf
        rw [htoks, concatVals_cons] at hcat
        by_cases hT : t.typ = .ItemTrailer
        · -- trailer: scan to startxref, rewrite the offset, reset, back to main
          rw [if_pos hT] at hwf
          have hchunk := chunk_take eye t.val (concatVals rest) pos hpos hcat.symm
          rw [fixLoop_header_step]
          have hmh := maybeFindHeader_eval_trailer p t rest hstate htoks hT
          have hh1 : ({ p with toks := rest
                               Scratch := p.Scratch ++ t.val } : Parser).Scratch
              = eye.take (pos + t.val.length) := by
            simp only []
            rw [hscr]
            exact hchunk.1
          have hh2 : concatVals ({ p with toks := rest
                                          Scratch := p.Scratch ++ t.val } : Parser).toks
              = eye.drop (pos + t.val.length) := hchunk.2.1.symm
          have hh3 : pos + t.val.length ≤ eye.length := hchunk.2.2
          have hh4 : ({ p with toks := rest
                               Scratch := p.Scratch ++ t.val } : Parser).LastXref
              = (lastXref : Int) := hlx
          have hh5 : ({ p with toks := rest
                               Scratch := p.Scratch ++ t.val } : Parser).State = .inside :=
            hstate
          have hh6 : ({ p with toks := rest
                               Scratch := p.Scratch ++ t.val } : Parser).toks.length
              < rest.length + 1 := by
            simp only []
            omega
          obtain ⟨q, pos', w', hq, j1, j2, j3, j4, j5, j6, j7, j8⟩ :=
            wf_trailer_scan eye w
              { p with toks := rest
                       Scratch := p.Scratch ++ t.val }
              (pos + t.val.length) from_ lastXref (rest.length + 1) hwf hh1 hh2 hh3 hh4 hh5 hh6
          rw [hmh, hq]
          simp only [Bool.not_false, if_true]
          have hqlen : q.Scratch.length = pos' := by
            rw [j1]
            simp [List.length_take]
            omega
          refine (ih w' (by omega)).1 (resetToHere q) pos' ((pos' : Int) - 1) f ?_ ?_ ?_ j3
            ?_ ?_ ?_
          · rw [resetToHere_toks]
            exact j7
          · rw [resetToHere_Scratch]
            exact j1
          · rw [resetToHere_toks]
            exact j2
          · rw [resetToHere_From, hqlen]
          · apply resetToHere_State_ne
            rw [j4]
            decide
          · rw [resetToHere_toks]
            simp only [] at j8
            have : p.toks.length = rest.length + 1 := by rw [htoks]; simp
            omega
        · rw [if_neg hT] at hwf
          by_cases hN : t.typ = .ItemNumber
          · -- subsection header `offset count EOL`
            rw [if_pos hN] at hwf
            rcases hrest : rest with _ | ⟨s, r1⟩
            · rw [hrest] at hwf
              simp at hwf
            rcases hr1 : r1 with _ | ⟨n2, r2⟩
            · rw [hrest, hr1] at hwf
              simp at hwf
            rcases hr2 : r2 with _ | ⟨e, rest3⟩
            · rw [hrest, hr1, hr2] at hwf
              simp at hwf
            rw [hrest, hr1, hr2] at hwf
            simp only [] at hwf
            rcases hat : atoi t.val with _ | off
            · rw [hat] at hwf
              simp at hwf
            rcases hae : atoi n2.val with _ | ent
            · rw [hat, hae] at hwf
              simp at hwf
            rw [hat, hae] at hwf
            simp only [Bool.and_eq_true, decide_eq_true_eq] at hwf
            obtain ⟨⟨⟨⟨⟨hs, hn2⟩, he⟩, hoff⟩, hent⟩, hwf2⟩ := hwf
            rw [hrest, hr1, hr2] at htoks hcat
            have hlen4 : p.toks.length = rest3.length + 4 := by rw [htoks]; simp
            rcases ffuel0 : f with _ | f1
            · omega
            rw [fixLoop_header_step]
            have hmh := maybeFindHeader_eval_header p t s n2 e rest3 off ent hstate htoks
              hN hat hs hn2 hae he
            rw [hmh]
            simp only [Bool.not_true, Bool.false_eq_true, if_false]
            -- consume the four header tokens
            have hv : eye.drop pos =
                (t.val ++ s.val ++ n2.val ++ e.val) ++ concatVals rest3 := by
              simp only [List.append_assoc]
              rw [← hcat]
              simp [concatVals_cons, List.append_assoc]
            have hchunk := chunk_take eye (t.val ++ s.val ++ n2.val ++ e.val)
              (concatVals rest3) pos hpos hv
            have hlenv : pos + (t.val ++ s.val ++ n2.val ++ e.val).length =
                pos + t.val.length + s.val.length + n2.val.length + e.val.length := by
              simp [List.length_append]
              omega
            refine (ih w (Nat.lt_succ_self w)).2 _
              (pos + t.val.length + s.val.length + n2.val.length + e.val.length)
              from_ lastXref off 0 ent.toNat (f1 + 1) ?_ ?_ ?_ ?_ ?_ ?_ ?_ ?_ ?_ ?_
            · simp only []
              exact hwf2
            · simp only []
              rw [hscr, ← hlenv, ← hchunk.1]
              simp [List.append_assoc]
            · simp only []
              rw [← hlenv]
              exact hchunk.2.1.symm
            · rw [← hlenv]
              exact hchunk.2.2
            · simp only []
              exact hfrom
            · simp only []
              exact hstate
            · simp only []
              exact hlx
            · intro _
              simp only []
            · omega
            · simp only []
              have : p.toks.length = rest3.length + 4 := by rw [htoks]; simp
              omega
          · rw [if_neg hN] at hwf
            simp at hwf
      · -- one object-entry row
        rcases htoks : p.toks with _ | ⟨t1, r1⟩
        · rw [htoks] at hwf
          simp [wfLoop] at hwf
        rcases r1 with _ | ⟨t2, r2⟩
        · rw [htoks] at hwf
          simp [wfLoop] at hwf
        rcases r2 with _ | ⟨t3, r3⟩
        · rw [htoks] at hwf
          simp [wfLoop] at hwf
        rcases r3 with _ | ⟨t4, r4⟩
        · rw [htoks] at hwf
          simp [wfLoop] at hwf
        rcases r4 with _ | ⟨t5, rest⟩
        · rw [htoks] at hwf
          simp [wfLoop] at hwf
        rcases ffuel with _ | f
        · omega
        rw [htoks] at hwf
        simp only [wfLoop] at hwf
        simp only [Bool.and_eq_true, decide_eq_true_eq] at hwf
        obtain ⟨⟨⟨⟨⟨h1, h2⟩, h3⟩, h4⟩, h5⟩, hM⟩ := hwf
        rcases hat1 : atoi t1.val with _ | o
        · rw [hat1] at hM
          simp at hM
        rcases hat3 : atoi t3.val with _ | g
        · rw [hat1, hat3] at hM
          simp at hM
        rw [hat1, hat3] at hM
        simp only [Bool.and_eq_true, Bool.or_eq_true, decide_eq_true_eq] at hM
        obtain ⟨⟨⟨⟨⟨⟨⟨hl10, hpad10⟩, h2v⟩, hl5⟩, hpad5⟩, h4v⟩, hAOR⟩, hterm⟩ := hM
        rcases rest with _ | ⟨u, rest2⟩
        · simp at hterm
        rw [htoks, concatVals_cons] at hcat
        have h5v : t5.val = "n".data ∨ t5.val = "f".data := by
          rcases hAOR with h | ⟨h, _⟩
          exacts [Or.inr h, Or.inl h]
        have hfr := findRow_eval p t1 t2 t3 t4 t5 (u :: rest2) o g htoks
          h1 hl10 hat1 h2 (by rw [h2v]; rfl) h3 hl5 hat3 h4 (by rw [h4v]; rfl) h5 h5v
        rw [fixLoop_row_step, hfr]
        simp only []
        -- the re-emitted row text equals the original row text
        have hrw : rowWrite ⟨o, g, decide (t5.val = "n".data)⟩ i
            ({ p with toks := u :: rest2 } : Parser) =
            { p with toks := u :: rest2
                     Scratch := p.Scratch ++
                       (t1.val ++ t2.val ++ t3.val ++ t4.val ++ t5.val) } := by
          rcases hAOR with hf5 | ⟨hn5, hloc⟩
          · have hact : (⟨o, g, decide (t5.val = "n".data)⟩ : Row).Active = false := by
              simp only []
              rw [hf5]
              decide
            rw [rowWrite_inactive _ i _ hact]
            simp only []
            rw [hpad10, hpad5, h2v, h4v, hf5]
            simp [List.append_assoc]
          · have hact : (⟨o, g, decide (t5.val = "n".data)⟩ : Row).Active = true := by
              simp only []
              rw [hn5]
              decide
            have hdom : ((({ p with toks := u :: rest2 } : Parser).Scratch.take
                  ({ p with toks := u :: rest2 } : Parser).LastXref.toNat).drop
                  ({ p with toks := u :: rest2 } : Parser).From.toNat) =
                (eye.take lastXref).drop from_.toNat := by
              simp only []
              rw [hscr, hlx, hfrom, Int.toNat_natCast, List.take_take,
                Nat.min_eq_left hle]
            have hidx' : ({ p with toks := u :: rest2 } : Parser).Idx + (i : Int) =
                idx + (i : Int) := by
              simp only []
              rw [hidx (Nat.succ_pos k)]
            rw [rowWrite_active _ i _ o hact ?hoff]
            case hoff =>
              rw [hdom, hidx']
              simp only []
              by_cases hlt :
                  locateObj ((eye.take lastXref).drop from_.toNat) (idx + (i : Int)) < 0
              · rw [if_pos hlt]
              · rw [if_neg hlt]
                rcases hloc with h | h
                · exact absurd h hlt
                · rw [hfrom]
                  exact h
            simp only []
            rw [hpad10, hpad5, h2v, h4v, hn5]
            simp [List.append_assoc]
        rw [hrw]
        -- now the line terminator
        simp only [] at hterm
        by_cases hcr : u.typ = .ItemEOL ∧ u.val.length = 2
        · rw [if_pos hcr] at hterm
          obtain ⟨hu, hul⟩ := hcr
          have hclt := checkLineTerm_eval_crlf
            ({ p with toks := u :: rest2
                      Scratch := p.Scratch ++
                        (t1.val ++ t2.val ++ t3.val ++ t4.val ++ t5.val) } : Parser)
            u rest2 rfl hu hul
          rw [hclt]
          simp only [if_true]
          have hv : eye.drop pos =
              (t1.val ++ t2.val ++ t3.val ++ t4.val ++ t5.val ++ u.val) ++
                concatVals rest2 := by
            simp only [List.append_assoc]
            rw [← hcat]
            simp [concatVals_cons, List.append_assoc]
          have hchunk := chunk_take eye
            (t1.val ++ t2.val ++ t3.val ++ t4.val ++ t5.val ++ u.val)
            (concatVals rest2) pos hpos hv
          have hlenv : pos +
              (t1.val ++ t2.val ++ t3.val ++ t4.val ++ t5.val ++ u.val).length =
              pos + 20 := by
            have hn1 : t2.val.length = 1 := by rw [h2v]; rfl
            have hn4 : t4.val.length = 1 := by rw [h4v]; rfl
            have hn5 : t5.val.length = 1 := by
              rcases h5v with h | h <;> rw [h] <;> rfl
            simp [List.length_append, hl10, hl5, hn1, hn4, hn5, hul]
          refine (ih w (Nat.lt_succ_self w)).2 _ (pos + 20) from_ lastXref idx (i+1) k f
            hterm ?_ ?_ ?_ ?_ ?_ ?_ ?_ ?_ ?_
          · simp only []
            rw [hscr, ← hlenv, ← hchunk.1]
            simp [List.append_assoc]
          · simp only []
            rw [← hlenv]
            exact hchunk.2.1.symm
          · rw [← hlenv]
            exact hchunk.2.2
          · simp only []
            exact hfrom
          · simp only []
            exact hstate
          · simp only []
            exact hlx
          · intro _
            simp only []
            exact hidx (Nat.succ_pos k)
          · omega
          · simp only []
            have : p.toks.length = rest2.length + 6 := by rw [htoks]; simp
            omega
        · rw [if_neg hcr] at hterm
          by_cases hsp : u.typ = .ItemSpace ∧ u.val.length = 1
          · rw [if_pos hsp] at hterm
            obtain ⟨hu, hul⟩ := hsp
            rcases rest2 with _ | ⟨v, rest3⟩
            · simp at hterm
            simp only [Bool.and_eq_true, decide_eq_true_eq] at hterm
            obtain ⟨⟨hvt, hvl⟩, hterm⟩ := hterm
            have hclt := checkLineTerm_eval_spc
              ({ p with toks := u :: v :: rest3
                        Scratch := p.Scratch ++
                          (t1.val ++ t2.val ++ t3.val ++ t4.val ++ t5.val) } : Parser)
              u v rest3 rfl hu hul hvt hvl
            rw [hclt]
            simp only [if_true]
            have hv : eye.drop pos =
                (t1.val ++ t2.val ++ t3.val ++ t4.val ++ t5.val ++ u.val ++ v.val) ++
                  concatVals rest3 := by
              simp only [List.append_assoc]
              rw [← hcat]
              simp [concatVals_cons, List.append_assoc]
            have hchunk := chunk_take eye
              (t1.val ++ t2.val ++ t3.val ++ t4.val ++ t5.val ++ u.val ++ v.val)
              (concatVals rest3) pos hpos hv
            have hlenv : pos +
                (t1.val ++ t2.val ++ t3.val ++ t4.val ++ t5.val ++ u.val ++ v.val).length =
                pos + 20 := by
              have hn1 : t2.val.length = 1 := by rw [h2v]; rfl
              have hn4 : t4.val.length = 1 := by rw [h4v]; rfl
              have hn5 : t5.val.length = 1 := by
                rcases h5v with h | h <;> rw [h] <;> rfl
              simp [List.length_append, hl10, hl5, hn1, hn4, hn5, hul, hvl]
            refine (ih w (Nat.lt_succ_self w)).2 _ (pos + 20) from_ lastXref idx (i+1) k f
              hterm ?_ ?_ ?_ ?_ ?_ ?_ ?_ ?_ ?_
            · simp only []
              rw [hscr, ← hlenv, ← hchunk.1]
              simp [List.append_assoc]
            · simp only []
              rw [← hlenv]
              exact hchunk.2.1.symm
            · rw [← hlenv]
              exact hchunk.2.2
            · simp only []
              exact hfrom
            · simp only []
              exact hstate
            · simp only []
              exact hlx
            · intro _
              simp only []
              exact hidx (Nat.succ_pos k)
            · omega
            · simp only []
              have : p.toks.length = rest3.length + 7 := by rw [htoks]; simp
              omega
          · rw [if_neg hsp] at hterm
            simp at hterm

end PdflexFix

namespace PdflexClaims

open Pdflex PdflexFix

/-- C6: for a well-formed PDF input — one whose lexed token stream the
healthy-file recogniser `wfFixInput` accepts (canonical 20-byte xref rows
whose stored offsets agree with the object positions located in the file,
and each `startxref` number equal to the decimal offset of its `xref`
keyword) and whose tokenisation reproduces the input byte-for-byte —
`FixXrefs` returns an output byte-identical to the input. -/
theorem c6_fixxrefs_identity_on_healthy (input : List Char)
    (hwf : wfFixInput input = true)
    (hrt : concatVals (lexAll input) = input) :
    fixXrefs (parserOn input) = input :=
  (wfLoop_fixLoop_eye input ((lexAll input).length + 1)).1
    (initParser (lexAll input)) 0 0 (2 * (lexAll input).length + 4)
    hwf rfl hrt (Nat.zero_le _) rfl rfl
    (by show (lexAll input).length < 2 * (lexAll input).length + 4; omega)

/-- Witness for C6: the healthy skeleton is accepted by the recogniser,
round-trips through the lexer, and is returned unchanged by the fixup. -/
theorem c6_fixxrefs_identity_on_healthy_witness :
    wfFixInput inpC6 = true ∧
    concatVals (lexAll inpC6) = inpC6 ∧
    fixXrefs (parserOn inpC6) = inpC6 :=
  ⟨by decide, by decide,
   c6_fixxrefs_identity_on_healthy inpC6 (by decide) (by decide)⟩

end PdflexClaims
